import Mathlib

/-!
Verification of the graphql-transport-ws wire codec and connection layer.

This file shallowly embeds the Go sources of the repository:

- the message codec (`operationMessage`, `Request`, `Response`, `ServerError`,
  `operationMessage.MarshalJSON`, `operationMessage.UnmarshalJSON`,
  `marshalPayload`) from the codec source file (package `gws`);
- the connection layer (`Conn.Close`) from `conn.go`;
- a spec-modelled client multiplexer (the client source is not part of the
  provided sources; only its tests are).

Modelling conventions:

- Byte strings are `List Char` (`Bytes`).  The repository only manipulates
  textual JSON, so runes model bytes faithfully for all inputs considered here.
- Go's generic `encoding/json` decoder is modelled by an executable JSON
  parser (`parseVal` and friends) over `Bytes`, with the raw text of each
  object member captured exactly as the bytes the parser consumed, mirroring
  `json.RawMessage`.  Struct decoding is modelled as parsing the top-level
  object and folding its members in order (later duplicate keys overwrite
  earlier ones, unknown keys are skipped, as in `encoding/json`).  Field names
  are matched exactly (Go additionally falls back to a case-insensitive
  match); JSON numbers are modelled as integers (Go uses float64); both
  restrictions only shrink the set of inputs the model accepts.
- Go `interface` values decoded from JSON are modelled by the `Jval` type;
  a `map[string]interface` value is represented canonically as an assoc
  list sorted by key (Go maps are unordered; `json.Marshal` emits their keys
  sorted, which the canonical form mirrors).  `Jval.unsupported` stands for a
  Go value `json.Marshal` rejects (a channel, a function, ...).
-/

namespace GTWS

abbrev Bytes := List Char

def lit (s : String) : Bytes := s.data

def lbrace : Char := Char.ofNat 123

def rbrace : Char := Char.ofNat 125

/-- JSON values, as produced by decoding into a Go `interface` value.
`unsupported` stands for a Go value that `json.Marshal` cannot serialize. -/
inductive Jval where
  | null
  | bool (b : Bool)
  | num (n : Int)
  | str (s : String)
  | arr (xs : List Jval)
  | obj (fs : List (String × Jval))
  | unsupported

/-! ### Character helpers -/

def isWsC (c : Char) : Bool := c == ' ' || c == '\t' || c == '\n' || c == '\r'

def isDigitC (c : Char) : Bool := 48 ≤ c.toNat && c.toNat ≤ 57

def digitVal (c : Char) : Nat := c.toNat - 48

def digitChar (n : Nat) : Char := ("0123456789".data.getD n '0')

def hexDigitChar (n : Nat) : Char := ("0123456789abcdef".data.getD n '0')

def hexVal (c : Char) : Option Nat :=
  let n := c.toNat
  if 48 ≤ n && n ≤ 57 then some (n - 48)
  else if 97 ≤ n && n ≤ 102 then some (n - 97 + 10)
  else if 65 ≤ n && n ≤ 70 then some (n - 65 + 10)
  else none

/-- Byte-wise (here: rune-wise) lexicographic strict order, modelling how Go
compares the strings `json.Marshal` sorts map keys by. -/
def lexLt : List Char → List Char → Bool
  | [], [] => false
  | [], _ :: _ => true
  | _ :: _, [] => false
  | a :: as, b :: bs =>
    if a.toNat < b.toNat then true
    else if b.toNat < a.toNat then false
    else lexLt as bs

def keyLt (a b : String) : Bool := lexLt a.data b.data

/-! ### The JSON printer (model of `encoding/json.Marshal` output) -/

/-- The escaping `encoding/json` applies to one character of a string
(with the default HTML escaping of `json.Marshal`). -/
def escU (n : Nat) : Bytes := ['\\', 'u', '0', '0', hexDigitChar (n / 16), hexDigitChar (n % 16)]

def escapeChar (c : Char) : Bytes :=
  if c == '"' then ['\\', '"']
  else if c == '\\' then ['\\', '\\']
  else if c == '\n' then ['\\', 'n']
  else if c == '\r' then ['\\', 'r']
  else if c == '\t' then ['\\', 't']
  else if c.toNat < 32 then escU c.toNat
  else if c == '<' || c == '>' || c == '&' then escU c.toNat
  else if c.toNat = 8232 then ['\\', 'u', '2', '0', '2', '8']
  else if c.toNat = 8233 then ['\\', 'u', '2', '0', '2', '9']
  else [c]

/-- A character the JSON string escaper passes through unchanged. -/
def plainCharB (c : Char) : Bool :=
  32 ≤ c.toNat && c != '"' && c != '\\' && c != '<' && c != '>' && c != '&'
    && c.toNat != 8232 && c.toNat != 8233

def plainStrB (s : String) : Bool := s.data.all plainCharB

def escAll : List Char → Bytes
  | [] => []
  | c :: t => escapeChar c ++ escAll t

def printQuoted (s : String) : Bytes := '"' :: escAll s.data ++ ['"']

def printNat (n : Nat) : Bytes :=
  if n < 10 then [digitChar n]
  else printNat (n / 10) ++ [digitChar (n % 10)]
decreasing_by exact Nat.div_lt_self (by omega) (by omega)

def printInt (i : Int) : Bytes :=
  if i < 0 then '-' :: printNat i.natAbs else printNat i.natAbs

mutual

/-- Canonical whitespace-free JSON text of a value, object members in list
order.  `json.Marshal` produces exactly this text after deep-sorting map
keys (see `jsonMarshal`). -/
def printJraw : Jval → Bytes
  | .null => lit "null"
  | .bool b => if b then lit "true" else lit "false"
  | .num n => printInt n
  | .str s => printQuoted s
  | .arr xs => '[' :: printElemsRaw xs ++ [']']
  | .obj fs => lbrace :: printFieldsRaw fs ++ [rbrace]
  | .unsupported => []

def printElemsRaw : List Jval → Bytes
  | [] => []
  | [x] => printJraw x
  | x :: y :: t => printJraw x ++ ',' :: printElemsRaw (y :: t)

def printFieldsRaw : List (String × Jval) → Bytes
  | [] => []
  | [(k, v)] => printQuoted k ++ ':' :: printJraw v
  | (k, v) :: q :: t => printQuoted k ++ ':' :: printJraw v ++ ',' :: printFieldsRaw (q :: t)

end

def insertByKey (p : String × Jval) : List (String × Jval) → List (String × Jval)
  | [] => [p]
  | q :: t => if keyLt p.1 q.1 then p :: q :: t else q :: insertByKey p t

/-- Sorting of map keys, as `json.Marshal` performs before emitting a map. -/
def sortByKey (l : List (String × Jval)) : List (String × Jval) :=
  l.foldr insertByKey []

mutual

def sortDeep : Jval → Jval
  | .arr xs => .arr (sortDeepL xs)
  | .obj fs => .obj (sortByKey (sortDeepF fs))
  | v => v

def sortDeepL : List Jval → List Jval
  | [] => []
  | x :: t => sortDeep x :: sortDeepL t

def sortDeepF : List (String × Jval) → List (String × Jval)
  | [] => []
  | (k, v) :: t => (k, sortDeep v) :: sortDeepF t

end

mutual

def hasUnsupported : Jval → Bool
  | .arr xs => hasUnsupportedL xs
  | .obj fs => hasUnsupportedF fs
  | .unsupported => true
  | _ => false

def hasUnsupportedL : List Jval → Bool
  | [] => false
  | x :: t => hasUnsupported x || hasUnsupportedL t

def hasUnsupportedF : List (String × Jval) → Bool
  | [] => false
  | (_, v) :: t => hasUnsupported v || hasUnsupportedF t

end

/-- Model of `encoding/json.Marshal` on a Go `interface` value: fails iff the
value contains an unserializable component, otherwise emits the canonical
whitespace-free text with map keys sorted at every level. -/
def jsonMarshal (v : Jval) : Except String Bytes :=
  if hasUnsupported v then .error "json: unsupported type"
  else .ok (printJraw (sortDeep v))

/-! ### The JSON parser (model of the `encoding/json` decoder) -/

def skipWs : Bytes → Bytes
  | [] => []
  | c :: r => if isWsC c then skipWs r else c :: r

/-- Greedily read decimal digits, accumulating their value. -/
def readDigits : Bytes → Nat → Nat × Bytes
  | [], acc => (acc, [])
  | c :: r, acc => if isDigitC c then readDigits r (acc * 10 + digitVal c) else (acc, c :: r)

def parseNum : Bytes → Except String (Int × Bytes)
  | [] => .error "unexpected end of JSON input"
  | c :: r =>
    if c == '-' then
      match r with
      | c2 :: _ =>
        if isDigitC c2 then
          let p := readDigits r 0
          .ok (-(p.1 : Int), p.2)
        else .error "invalid character in numeric literal"
      | [] => .error "unexpected end of JSON input"
    else if isDigitC c then
      let p := readDigits (c :: r) 0
      .ok ((p.1 : Int), p.2)
    else .error "invalid character"

/-- Body of a JSON string, after the opening quote; handles the standard
escapes (surrogate pairs are out of scope). -/
def parseStrBody : Bytes → Except String (List Char × Bytes)
  | [] => .error "unexpected end of JSON input"
  | c :: r =>
    if c == '"' then .ok ([], r)
    else if c == '\\' then
      match r with
      | [] => .error "unexpected end of JSON input"
      | e :: r2 =>
        if e == 'u' then
          match r2 with
          | h1 :: h2 :: h3 :: h4 :: r3 =>
            match hexVal h1, hexVal h2, hexVal h3, hexVal h4 with
            | some a, some b, some c2, some d =>
              match parseStrBody r3 with
              | .ok (s, r4) => .ok (Char.ofNat (((a * 16 + b) * 16 + c2) * 16 + d) :: s, r4)
              | .error e2 => .error e2
            | _, _, _, _ => .error "invalid escape"
          | _ => .error "unexpected end of JSON input"
        else
          match
            (if e == '"' then some '"'
             else if e == '\\' then some '\\'
             else if e == '/' then some '/'
             else if e == 'n' then some '\n'
             else if e == 't' then some '\t'
             else if e == 'r' then some '\r'
             else if e == 'b' then some (Char.ofNat 8)
             else if e == 'f' then some (Char.ofNat 12)
             else none) with
          | some d =>
            match parseStrBody r2 with
            | .ok (s, r3) => .ok (d :: s, r3)
            | .error e2 => .error e2
          | none => .error "invalid escape"
    else if c.toNat < 32 then .error "invalid character in string literal"
    else
      match parseStrBody r with
      | .ok (s, r2) => .ok (c :: s, r2)
      | .error e => .error e

mutual

/-- Parse one JSON value.  The input must start at the value (no leading
whitespace); the returned rest starts right after the value's last byte. -/
def parseVal : Nat → Bytes → Except String (Jval × Bytes)
  | 0, _ => .error "exceeded max depth"
  | _ + 1, [] => .error "unexpected end of JSON input"
  | f + 1, c :: r =>
    if c == '"' then
      match parseStrBody r with
      | .ok (s, r2) => .ok (.str ⟨s⟩, r2)
      | .error e => .error e
    else if c == lbrace then
      match skipWs r with
      | [] => .error "unexpected end of JSON input"
      | d :: r2 =>
        if d == rbrace then .ok (.obj [], r2)
        else
          match parseMembers f (d :: r2) with
          | .ok (ms, r3) => .ok (.obj (ms.map (fun m => (m.1, m.2.1))), r3)
          | .error e => .error e
    else if c == '[' then
      match skipWs r with
      | [] => .error "unexpected end of JSON input"
      | d :: r2 =>
        if d == ']' then .ok (.arr [], r2)
        else
          match parseElems f (d :: r2) with
          | .ok (es, r3) => .ok (.arr (es.map Prod.fst), r3)
          | .error e => .error e
    else if c == 't' then
      match r with
      | 'r' :: 'u' :: 'e' :: r2 => .ok (.bool true, r2)
      | _ => .error "invalid character"
    else if c == 'f' then
      match r with
      | 'a' :: 'l' :: 's' :: 'e' :: r2 => .ok (.bool false, r2)
      | _ => .error "invalid character"
    else if c == 'n' then
      match r with
      | 'u' :: 'l' :: 'l' :: r2 => .ok (.null, r2)
      | _ => .error "invalid character"
    else if c == '-' || isDigitC c then
      match parseNum (c :: r) with
      | .ok (n, r2) => .ok (.num n, r2)
      | .error e => .error e
    else .error "invalid character"

/-- Parse the members of a JSON object, starting at the first key and
consuming through the closing brace.  Each member carries the raw text of its
value exactly as consumed, modelling `json.RawMessage`. -/
def parseMembers : Nat → Bytes → Except String (List (String × Jval × Bytes) × Bytes)
  | 0, _ => .error "exceeded max depth"
  | f + 1, b =>
    match skipWs b with
    | [] => .error "unexpected end of JSON input"
    | c :: r =>
      if c == '"' then
        match parseStrBody r with
        | .error e => .error e
        | .ok (k, r1) =>
          match skipWs r1 with
          | [] => .error "unexpected end of JSON input"
          | c2 :: r2 =>
            if c2 == ':' then
              let r3 := skipWs r2
              match parseVal f r3 with
              | .error e => .error e
              | .ok (v, r4) =>
                let raw := r3.take (r3.length - r4.length)
                match skipWs r4 with
                | [] => .error "unexpected end of JSON input"
                | d :: r5 =>
                  if d == ',' then
                    match parseMembers f r5 with
                    | .ok (ms, r6) => .ok ((⟨k⟩, v, raw) :: ms, r6)
                    | .error e => .error e
                  else if d == rbrace then .ok ([(⟨k⟩, v, raw)], r5)
                  else .error "invalid character after object member"
            else .error "invalid character after object key"
      else .error "invalid character looking for object key"

/-- Parse the elements of a JSON array, starting at the first element and
consuming through the closing bracket; each element carries its raw text. -/
def parseElems : Nat → Bytes → Except String (List (Jval × Bytes) × Bytes)
  | 0, _ => .error "exceeded max depth"
  | f + 1, b =>
    let b1 := skipWs b
    match parseVal f b1 with
    | .error e => .error e
    | .ok (v, r) =>
      let raw := b1.take (b1.length - r.length)
      match skipWs r with
      | [] => .error "unexpected end of JSON input"
      | d :: r2 =>
        if d == ',' then
          match parseElems f r2 with
          | .ok (es, r3) => .ok ((v, raw) :: es, r3)
          | .error e => .error e
        else if d == ']' then .ok ([(v, raw)], r2)
        else .error "invalid character after array element"

end

/-! ### The wire message model (codec source file, package `gws`) -/

abbrev reqType := String

def gqlConnectionInit : reqType := "connection_init"

def gqlStart : reqType := "start"

def gqlStop : reqType := "stop"

def gqlConnectionTerminate : reqType := "connection_terminate"

def gqlConnectionError : reqType := "connection_error"

def gqlConnectionAck : reqType := "connection_ack"

def gqlData : reqType := "data"

def gqlError : reqType := "error"

def gqlComplete : reqType := "complete"

def gqlConnectionKeepAlive : reqType := "connection_keep_alive"

def knownTypes : List reqType :=
  [gqlConnectionInit, gqlStart, gqlStop, gqlConnectionTerminate, gqlConnectionError,
   gqlConnectionAck, gqlData, gqlError, gqlComplete, gqlConnectionKeepAlive]

/-- The four types whose payload decodes as a `Request`. -/
def requestTypes : List reqType :=
  [gqlConnectionInit, gqlStart, gqlStop, gqlConnectionTerminate]

/-- The five types whose payload decodes as a `Response`. -/
def responseTypes : List reqType :=
  [gqlConnectionError, gqlConnectionAck, gqlData, gqlComplete, gqlConnectionKeepAlive]

abbrev opID := String

/-- `Request` from the codec source.  `vars` models the Go field `Variables`
(`variables` is not a usable name in Lean): a nullable map from strings to
arbitrary Go values. -/
structure Request where
  query : String
  vars : Option (List (String × Jval))
  operationName : String

/-- `Response` from the codec source: `Data` and each element of `Errors`
are `json.RawMessage` values, i.e. raw bytes. -/
structure Response where
  data : Bytes
  errors : Option (List Bytes)

structure ServerError where
  msg : String

/-- The `payload` interface: one of the three concrete payloads, or the
`unknown` catch-all map type. -/
inductive payload where
  | req (r : Request)
  | resp (r : Response)
  | srvErr (e : ServerError)
  | unknown (m : List (String × Jval))

structure operationMessage where
  id : opID
  type : reqType
  payload : Option payload

def zeroOpMessage : operationMessage := ⟨"", "", none⟩

/-! ### Encoding (`operationMessage.MarshalJSON`, `marshalPayload`) -/

def joinComma : List Bytes → Bytes
  | [] => []
  | [x] => x
  | x :: y :: t => x ++ ',' :: joinComma (y :: t)

/-- `marshalPayload` from the codec source.  Returns the bytes written to the
writer together with the returned error: on a variables marshalling failure
the function returns early, leaving the partial bytes already written. -/
def marshalPayload : payload → Bytes × Option String
  | .req v =>
    let b1 := lit "\x7b\"query\":\"" ++ v.query.data ++ ['"']
    let step :=
      match v.vars with
      | none => (b1, none)
      | some m =>
        let bv := b1 ++ lit ",\"variables\":"
        match jsonMarshal (.obj m) with
        | .error e => (bv, some e)
        | .ok mb => (bv ++ mb, none)
    match step with
    | (b2, some e) => (b2, some e)
    | (b2, none) =>
      let b3 :=
        if v.operationName ≠ "" then
          b2 ++ lit ",\"operationName\":\"" ++ v.operationName.data ++ ['"']
        else b2
      (b3 ++ [rbrace], none)
  | .resp v =>
    let b1 := lit "\x7b\"data\":" ++ v.data
    let b2 :=
      match v.errors with
      | none => b1
      | some es => b1 ++ lit ",\"errors\":[" ++ joinComma es ++ [']']
    (b2 ++ [rbrace], none)
  | .srvErr e => (lit "\x7b\"msg\":\"" ++ e.msg.data ++ lit "\"\x7d", none)
  | .unknown _ => ([], none)

/-- `operationMessage.MarshalJSON` from the codec source: hand-written buffer
appends; the error returned by `marshalPayload` is discarded and the method
always returns a nil error. -/
def operationMessage.MarshalJSON (m : operationMessage) : Bytes × Option String :=
  let b0 : Bytes := [lbrace]
  let b1 := if m.id ≠ "" then b0 ++ lit "\"id\":\"" ++ m.id.data ++ lit "\"," else b0
  let b2 := b1 ++ lit "\"type\":\"" ++ m.type.data ++ ['"']
  let b3 :=
    match m.payload with
    | none => b2
    | some p => b2 ++ lit ",\"payload\":" ++ (marshalPayload p).1
  (b3 ++ [rbrace], none)

/-! ### Decoding (`operationMessage.UnmarshalJSON`) -/

/-- Parse a complete JSON document that must be an object (or `null`,
which `encoding/json` accepts as a no-op for a struct or map target),
returning its members with their raw value texts. -/
def parseTopFields (b : Bytes) : Except String (Option (List (String × Jval × Bytes))) :=
  match skipWs b with
  | [] => .error "unexpected end of JSON input"
  | c :: r =>
    if c == lbrace then
      match skipWs r with
      | [] => .error "unexpected end of JSON input"
      | d :: r2 =>
        if d == rbrace then
          if skipWs r2 = [] then .ok (some [])
          else .error "invalid character after top-level value"
        else
          match parseMembers (b.length + 1) (d :: r2) with
          | .ok (ms, rest) =>
            if skipWs rest = [] then .ok (some ms)
            else .error "invalid character after top-level value"
          | .error e => .error e
    else if c == 'n' then
      match r with
      | 'u' :: 'l' :: 'l' :: r2 =>
        if skipWs r2 = [] then .ok none
        else .error "invalid character after top-level value"
      | _ => .error "invalid character"
    else .error "json: cannot unmarshal value into object target"

/-- The anonymous raw struct inside `operationMessage.UnmarshalJSON`:
`ID`, `Type`, and the payload captured as `json.RawMessage`. -/
structure rawOpMessage where
  id : opID
  type : reqType
  payload : Option Bytes

def zeroRawOpMessage : rawOpMessage := ⟨"", "", none⟩

def applyRawField (r : rawOpMessage) (kv : String × Jval × Bytes) : Except String rawOpMessage :=
  if kv.1 = "id" then
    match kv.2.1 with
    | .str s => .ok { r with id := s }
    | .null => .ok r
    | _ => .error "json: cannot unmarshal value into field of string type"
  else if kv.1 = "type" then
    match kv.2.1 with
    | .str s => .ok { r with type := s }
    | .null => .ok r
    | _ => .error "json: cannot unmarshal value into field of string type"
  else if kv.1 = "payload" then .ok { r with payload := some kv.2.2 }
  else .ok r

/-- `json.Unmarshal(b, &raw)` for the raw envelope struct. -/
def decodeRawOpMessage (b : Bytes) : Except String rawOpMessage :=
  match parseTopFields b with
  | .error e => .error e
  | .ok none => .ok zeroRawOpMessage
  | .ok (some fs) => fs.foldlM applyRawField zeroRawOpMessage

def mapInsert : List (String × Jval) → String → Jval → List (String × Jval)
  | [], k, v => [(k, v)]
  | (k0, v0) :: t, k, v =>
    if k = k0 then (k, v) :: t
    else if keyLt k k0 then (k, v) :: (k0, v0) :: t
    else (k0, v0) :: mapInsert t k v

mutual

/-- Conversion of a parsed JSON value into the canonical form `encoding/json`
produces when decoding into a Go `interface` value (objects become maps,
represented canonically as key-sorted assoc lists, later duplicates win). -/
def canonJ : Jval → Jval
  | .arr xs => .arr (canonL xs)
  | .obj fs => .obj (canonF [] fs)
  | v => v

def canonL : List Jval → List Jval
  | [] => []
  | x :: t => canonJ x :: canonL t

def canonF : List (String × Jval) → List (String × Jval) → List (String × Jval)
  | acc, [] => acc
  | acc, (k, v) :: t => canonF (mapInsert acc k (canonJ v)) t

end

def applyRequestField (r : Request) (kv : String × Jval × Bytes) : Except String Request :=
  if kv.1 = "query" then
    match kv.2.1 with
    | .str s => .ok { r with query := s }
    | .null => .ok r
    | _ => .error "json: cannot unmarshal value into field of string type"
  else if kv.1 = "variables" then
    match kv.2.1 with
    | .obj fs => .ok { r with vars := some (canonF [] fs) }
    | .null => .ok r
    | _ => .error "json: cannot unmarshal value into field of map type"
  else if kv.1 = "operationName" then
    match kv.2.1 with
    | .str s => .ok { r with operationName := s }
    | .null => .ok r
    | _ => .error "json: cannot unmarshal value into field of string type"
  else .ok r

/-- `json.Unmarshal(b, req)` for a `Request` target. -/
def unmarshalRequest (b : Bytes) (r0 : Request) : Except String Request :=
  match parseTopFields b with
  | .error e => .error e
  | .ok none => .ok r0
  | .ok (some fs) => fs.foldlM applyRequestField r0

/-- Recover the raw texts of the elements of an array value (for the
`[]json.RawMessage` target of `Response.Errors`). -/
def parseArrayRaws (raw : Bytes) : Except String (List Bytes) :=
  match raw with
  | [] => .error "unexpected end of JSON input"
  | c :: r =>
    if c == '[' then
      match skipWs r with
      | [] => .error "unexpected end of JSON input"
      | d :: r2 =>
        if d == ']' then .ok []
        else
          match parseElems (raw.length + 1) (d :: r2) with
          | .ok (es, _) => .ok (es.map Prod.snd)
          | .error e => .error e
    else .error "json: cannot unmarshal value into field of slice type"

def applyResponseField (r : Response) (kv : String × Jval × Bytes) : Except String Response :=
  if kv.1 = "data" then .ok { r with data := kv.2.2 }
  else if kv.1 = "errors" then
    match kv.2.1 with
    | .arr _ =>
      match parseArrayRaws kv.2.2 with
      | .ok raws => .ok { r with errors := some raws }
      | .error e => .error e
    | .null => .ok r
    | _ => .error "json: cannot unmarshal value into field of slice type"
  else .ok r

/-- `json.Unmarshal(b, resp)` for a `Response` target. -/
def unmarshalResponse (b : Bytes) (r0 : Response) : Except String Response :=
  match parseTopFields b with
  | .error e => .error e
  | .ok none => .ok r0
  | .ok (some fs) => fs.foldlM applyResponseField r0

def applyServerErrorField (r : ServerError) (kv : String × Jval × Bytes) :
    Except String ServerError :=
  if kv.1 = "msg" then
    match kv.2.1 with
    | .str s => .ok { r with msg := s }
    | .null => .ok r
    | _ => .error "json: cannot unmarshal value into field of string type"
  else .ok r

/-- `json.Unmarshal(b, serr)` for a `ServerError` target. -/
def unmarshalServerError (b : Bytes) (r0 : ServerError) : Except String ServerError :=
  match parseTopFields b with
  | .error e => .error e
  | .ok none => .ok r0
  | .ok (some fs) => fs.foldlM applyServerErrorField r0

/-- `operationMessage.UnmarshalJSON` from the codec source, on receiver `m`. -/
def operationMessage.UnmarshalJSON (m : operationMessage) (b : Bytes) :
    Except String operationMessage :=
  match decodeRawOpMessage b with
  | .error e => .error e
  | .ok raw =>
    let m1 : operationMessage := { m with type := raw.type }
    let m2 := if raw.id ≠ "" then { m1 with id := raw.id } else m1
    match raw.payload with
    | none => .ok m2
    | some p =>
      if p.length = 0 then .ok m2
      else if raw.type ∈ requestTypes then
        match unmarshalRequest p ⟨"", none, ""⟩ with
        | .ok r => .ok { m2 with payload := some (.req r) }
        | .error e => .error e
      else if raw.type ∈ responseTypes then
        match unmarshalResponse p ⟨[], none⟩ with
        | .ok r => .ok { m2 with payload := some (.resp r) }
        | .error e => .error e
      else if raw.type = gqlError then
        match unmarshalServerError p ⟨""⟩ with
        | .ok r => .ok { m2 with payload := some (.srvErr r) }
        | .error e => .error e
      else .error ("unsupported message type: " ++ raw.type)


/-! ### Validity predicates for the encode/decode round trip

`validMessageB` delimits the class of envelopes the (corrected) round-trip
theorem covers: all strings escape-free, the payload variant matching the
`type` tag, variables maps canonical (key-sorted, duplicate-free), and the
opaque raw values (`Response.data`, elements of `Response.errors`) equal to
the canonical text of a parseable JSON value. -/

def sortedKeysB : List (String × Jval) → Bool
  | [] => true
  | [_] => true
  | (k1, _) :: (k2, w) :: t => keyLt k1 k2 && sortedKeysB ((k2, w) :: t)

mutual

/-- A canonical, escape-free, serializable JSON value whose maps are sorted
and duplicate-free at every level: exactly the values that survive a
marshal/parse/canonicalize cycle unchanged. -/
def goodJB : Jval → Bool
  | .null => true
  | .bool _ => true
  | .num _ => true
  | .str s => plainStrB s
  | .arr xs => goodLB xs
  | .obj fs => sortedKeysB fs && goodFB fs
  | .unsupported => false

def goodLB : List Jval → Bool
  | [] => true
  | x :: t => goodJB x && goodLB t

def goodFB : List (String × Jval) → Bool
  | [] => true
  | (k, v) :: t => plainStrB k && goodJB v && goodFB t

end

mutual

/-- A parseable escape-free value: like `goodJB` but without the sortedness
requirement (raw pass-through bytes need not be sorted). -/
def rawGoodB : Jval → Bool
  | .null => true
  | .bool _ => true
  | .num _ => true
  | .str s => plainStrB s
  | .arr xs => rawGoodLB xs
  | .obj fs => rawGoodFB fs
  | .unsupported => false

def rawGoodLB : List Jval → Bool
  | [] => true
  | x :: t => rawGoodB x && rawGoodLB t

def rawGoodFB : List (String × Jval) → Bool
  | [] => true
  | (k, v) :: t => plainStrB k && rawGoodB v && rawGoodFB t

end

/-- The bytes are exactly the canonical text of a parseable escape-free JSON
value (as a resolver would hand over for pass-through raw fields). -/
def rawValueTextB (b : Bytes) : Bool :=
  match parseVal (b.length + 1) b with
  | .ok (v, rest) => rest.isEmpty && rawGoodB v && printJraw v == b
  | .error _ => false

def goodVarsB : Option (List (String × Jval)) → Bool
  | none => true
  | some m => sortedKeysB m && goodFB m

def validRequestB (r : Request) : Bool :=
  plainStrB r.query && plainStrB r.operationName && goodVarsB r.vars

def validErrorsB : Option (List Bytes) → Bool
  | none => true
  | some es => es.all rawValueTextB

def validResponseB (r : Response) : Bool :=
  rawValueTextB r.data && validErrorsB r.errors

def validPayloadB (ty : reqType) : Option payload → Bool
  | none => true
  | some (.req r) => decide (ty ∈ requestTypes) && validRequestB r
  | some (.resp r) => decide (ty ∈ responseTypes) && validResponseB r
  | some (.srvErr e) => (ty == gqlError) && plainStrB e.msg
  | some (.unknown _) => false

def validMessageB (m : operationMessage) : Bool :=
  plainStrB m.id && plainStrB m.type && validPayloadB m.type m.payload

/-! ### The connection layer (`conn.go`) -/

/-- Observable actions of `Conn.Close` in order.  `wroteMessage` records the
marshalled bytes handed to the transport and whether the transport accepted
them. -/
inductive connEvent where
  | closedDoneChannel
  | wroteMessage (b : Bytes) (ok : Bool)
  | closedTransport

inductive closeOutcome where
  | panicked (msg : String)
  | returned (err : Option String)

/-- `Conn` from `conn.go`: the `done` channel is observable only through
whether it has been closed, the wrapped `websocket.Conn` only through whether
it has been closed.  The transport itself is an external collaborator, so its
possible write failure enters as the oracle argument `writeErr` below. -/
structure Conn where
  doneClosed : Bool
  transportClosed : Bool

def newConn : Conn := ⟨false, false⟩

/-- `Conn.write`: marshal the message (propagating its error, which
`MarshalJSON` never reports) and hand the bytes to the transport, whose
verdict is the oracle `writeErr`. -/
def Conn.write (msg : operationMessage) (writeErr : Option String) : Bytes × Option String :=
  match msg.MarshalJSON with
  | (b, some e) => (b, some e)
  | (b, none) => (b, writeErr)

/-- `Conn.Close` from `conn.go`:

- `close(c.done)` panics if the channel is already closed (Go runtime
  behaviour of `close` on a closed channel);
- then a `connection_terminate` envelope is written; if that write fails the
  error is returned immediately and `c.wc.Close` is never reached;
- otherwise the transport is closed (assumed to succeed; its error value is
  irrelevant to the claims considered here). -/
def Conn.Close (c : Conn) (writeErr : Option String) : Conn × closeOutcome × List connEvent :=
  if c.doneClosed then (c, .panicked "close of closed channel", [])
  else
    let c1 : Conn := { c with doneClosed := true }
    let w := Conn.write ⟨"", gqlConnectionTerminate, none⟩ writeErr
    match w.2 with
    | some e => (c1, .returned (some e), [.closedDoneChannel, .wroteMessage w.1 false])
    | none =>
      ({ c1 with transportClosed := true }, .returned none,
       [.closedDoneChannel, .wroteMessage w.1 true, .closedTransport])

/-! ### The client multiplexer (spec-modelled) -/

/-- Connection-scoped fatal errors of the client multiplexer. -/
inductive connFault where
  | decodeFailure (msg : String)
  | unexpectedMessage (msg : String)
  | ioFailure (msg : String)

inductive submitOutcome where
  | success (r : Response)
  | serverFailure (e : ServerError)
  | connFailure (f : connFault)

/-- Modelled from the spec: the client multiplexer source (the `Client` type
with `Submit`/`Query` and its single reader task) is not among the provided
sources; only its tests are.  Per the spec, the client keeps a set of waiters
keyed by operation id and a terminal fault slot: a connection-fatal error is
"recorded once as the connection's terminal fault and delivered to every
current and future caller on that connection". -/
structure Client where
  pending : List opID
  fault : Option connFault

/-- Modelled from the spec: a connection-fatal event (peer closed the
connection, decode failure, unexpected message, I/O failure) stores the
fault (first fault wins) and delivers it to every pending waiter. -/
def Client.onFatal (c : Client) (f : connFault) : Client × List (opID × submitOutcome) :=
  let f0 := c.fault.getD f
  (⟨[], some f0⟩, c.pending.map fun w => (w, .connFailure f0))

/-- Modelled from the spec: a new submission on a faulted connection fails
immediately with the stored fatal error; otherwise it registers a waiter. -/
def Client.submit (c : Client) (w : opID) : Except connFault Client :=
  match c.fault with
  | some f => .error f
  | none => .ok ⟨w :: c.pending, none⟩

/-! ### Auxiliary definitions for the verification -/

mutual

/-- Fuel requirement of the parser on the printed form of a value. -/
def szV : Jval → Nat
  | .null => 1
  | .bool _ => 1
  | .num _ => 1
  | .str _ => 1
  | .arr xs => 1 + szL xs
  | .obj fs => 1 + szF fs
  | .unsupported => 0

def szL : List Jval → Nat
  | [] => 0
  | x :: t => 1 + szV x + szL t

def szF : List (String × Jval) → Nat
  | [] => 0
  | (_, v) :: t => 1 + szV v + szF t

end

/-- Object members annotated with the raw text of their value, as the parser
returns them on canonically printed input. -/
def annotF (fs : List (String × Jval)) : List (String × Jval × Bytes) :=
  fs.map fun kv => (kv.1, kv.2, printJraw kv.2)

/-- Array elements annotated with their raw text. -/
def annotL (xs : List Jval) : List (Jval × Bytes) :=
  xs.map fun v => (v, printJraw v)

/-- The rest of the input does not start with a digit (so that a printed
number is not extended by the following context). -/
def sepOk : Bytes → Bool
  | [] => true
  | c :: _ => !(isDigitC c)

/-- The JSON object `marshalPayload` emits for a `Request` payload. -/
def reqPayloadJ (r : Request) : List (String × Jval) :=
  ("query", .str r.query) ::
    ((match r.vars with
      | none => []
      | some m => [("variables", .obj m)]) ++
     (if r.operationName ≠ "" then [("operationName", .str r.operationName)] else []))

/-- The JSON object `marshalPayload` emits for a `Response` payload whose raw
fields print the given values. -/
def respPayloadJ (dv : Jval) (errs : Option (List Jval)) : List (String × Jval) :=
  ("data", dv) ::
    (match errs with
     | none => []
     | some evs => [("errors", .arr evs)])

/-- The JSON object `marshalPayload` emits for a `ServerError` payload. -/
def srvPayloadJ (e : ServerError) : List (String × Jval) := [("msg", .str e.msg)]

/-- The JSON object `operationMessage.MarshalJSON` emits for an envelope whose
payload (if any) prints the given value. -/
def envJ (id ty : String) (pj : Option Jval) : List (String × Jval) :=
  (if id ≠ "" then [("id", .str id)] else []) ++
    ("type", .str ty) ::
      (match pj with
       | none => []
       | some v => [("payload", v)])

/-- Last-wins lookup of an object member, mirroring how the decoder folds
duplicate keys. -/
def lastKV (key : String) (ms : List (String × Jval × Bytes)) : Option (Jval × Bytes) :=
  ms.foldl (fun acc m => if m.1 == key then some m.2 else acc) none

/-- The string the decoder's fold leaves in a string-typed raw field:
the value of the last member named `key`, or the default. -/
def lastStr (key : String) (d : String) (ms : List (String × Jval × Bytes)) : String :=
  match lastKV key ms with
  | some (Jval.str s, _) => s
  | _ => d

/-- The raw payload text the decoder's fold captures: the raw text of the
last `payload` member, or the default. -/
def lastRaw (d : Option Bytes) (ms : List (String × Jval × Bytes)) : Option Bytes :=
  match lastKV "payload" ms with
  | some (_, raw) => some raw
  | none => d

/-! ### Basic character and string lemmas -/

theorem char_eq_of_toNat {a b : Char} (h : a.toNat = b.toNat) : a = b := by
  rcases a with ⟨⟨⟨a, ha⟩⟩, va⟩
  rcases b with ⟨⟨⟨b, hb⟩⟩, vb⟩
  simp [Char.toNat, UInt32.toNat] at h
  subst h
  rfl

theorem char_beq_toNat (a b : Char) : (a == b) = (a.toNat == b.toNat) := by
  by_cases e : a = b
  · subst e; simp
  · have h2 : a.toNat ≠ b.toNat := fun h => e (char_eq_of_toNat h)
    simp [e, h2]

theorem strMk_data (s : String) : String.mk s.data = s := rfl

/-- Unpack `plainCharB` into arithmetic facts about the code point. -/
theorem plainCharB_elim {c : Char} (h : plainCharB c = true) :
    32 ≤ c.toNat ∧ c.toNat ≠ 34 ∧ c.toNat ≠ 92 ∧ c.toNat ≠ 60 ∧ c.toNat ≠ 62 ∧
    c.toNat ≠ 38 ∧ c.toNat ≠ 8232 ∧ c.toNat ≠ 8233 := by
  simp only [plainCharB, Bool.and_eq_true, bne,
    Bool.not_eq_true', beq_eq_false_iff_ne, ne_eq, decide_eq_true_eq] at h
  obtain ⟨⟨⟨⟨⟨⟨⟨h1, h2⟩, h3⟩, h4⟩, h5⟩, h6⟩, h7⟩, h8⟩ := h
  exact ⟨h1, fun e => h2 (char_eq_of_toNat e), fun e => h3 (char_eq_of_toNat e),
    fun e => h4 (char_eq_of_toNat e), fun e => h5 (char_eq_of_toNat e),
    fun e => h6 (char_eq_of_toNat e), h7, h8⟩

theorem escapeChar_plain {c : Char} (h : plainCharB c = true) : escapeChar c = [c] := by
  obtain ⟨h1, h2, h3, h4, h5, h6, h7, h8⟩ := plainCharB_elim h
  have e1 : (c == '"') = false := by rw [char_beq_toNat]; simpa using h2
  have e2 : (c == '\\') = false := by rw [char_beq_toNat]; simpa using h3
  have e3 : (c == '\n') = false := by rw [char_beq_toNat]; simp; omega
  have e4 : (c == '\r') = false := by rw [char_beq_toNat]; simp; omega
  have e5 : (c == '\t') = false := by rw [char_beq_toNat]; simp; omega
  have e6 : (c == '<') = false := by rw [char_beq_toNat]; simpa using h4
  have e7 : (c == '>') = false := by rw [char_beq_toNat]; simpa using h5
  have e8 : (c == '&') = false := by rw [char_beq_toNat]; simpa using h6
  simp [escapeChar, e1, e2, e3, e4, e5, e6, e7, e8, Nat.not_lt.mpr h1, h7, h8]

theorem escAll_plain {l : List Char} (h : l.all plainCharB = true) : escAll l = l := by
  induction l with
  | nil => rfl
  | cons c t ih =>
    simp only [List.all_cons, Bool.and_eq_true] at h
    simp [escAll, escapeChar_plain h.1, ih h.2]

theorem printQuoted_plain {s : String} (h : plainStrB s = true) :
    printQuoted s = '"' :: s.data ++ ['"'] := by
  simp [printQuoted, escAll_plain h]

theorem skipWs_cons {c : Char} (r : Bytes) (h : isWsC c = false) :
    skipWs (c :: r) = c :: r := by
  simp [skipWs, h]

theorem isWsC_eq_toNat (c : Char) :
    isWsC c = (c.toNat == 32 || c.toNat == 9 || c.toNat == 10 || c.toNat == 13) := by
  simp only [isWsC, char_beq_toNat]
  rfl

theorem parseStrBody_plain {l : List Char} (r : Bytes) (h : l.all plainCharB = true) :
    parseStrBody (l ++ '"' :: r) = .ok (l, r) := by
  induction l with
  | nil => rw [parseStrBody.eq_def]; simp
  | cons c t ih =>
    simp only [List.all_cons, Bool.and_eq_true] at h
    obtain ⟨h1, h2, h3, _⟩ := plainCharB_elim h.1
    have e1 : (c == '"') = false := by rw [char_beq_toNat]; simpa using h2
    have e2 : (c == '\\') = false := by rw [char_beq_toNat]; simpa using h3
    rw [List.cons_append, parseStrBody.eq_def]
    simp [e1, e2, Nat.not_lt.mpr h1, ih h.2]

theorem char_beq_eq_false_of_toNat {c d : Char} (h : c.toNat ≠ d.toNat) : (c == d) = false := by
  rw [char_beq_toNat]
  simpa using h

/-! ### Digit and number lemmas -/

theorem digitChar_toNat {n : Nat} (h : n < 10) : (digitChar n).toNat = 48 + n := by
  interval_cases n <;> rfl

theorem digitChar_isDigit {n : Nat} (h : n < 10) : isDigitC (digitChar n) = true := by
  simp [isDigitC, digitChar_toNat h]
  omega

theorem digitVal_digitChar {n : Nat} (h : n < 10) : digitVal (digitChar n) = n := by
  simp [digitVal, digitChar_toNat h]

theorem printNat_all_digits (n : Nat) : (printNat n).all isDigitC = true := by
  induction n using Nat.strong_induction_on with
  | _ n ih =>
    rw [printNat]
    by_cases h : n < 10
    · simp [h, digitChar_isDigit h]
    · simp only [h, if_false, List.all_append, List.all_cons, List.all_nil, Bool.and_eq_true]
      exact ⟨ih (n / 10) (Nat.div_lt_self (by omega) (by omega)),
        digitChar_isDigit (Nat.mod_lt _ (by omega)), trivial⟩

theorem printNat_ne_nil (n : Nat) : printNat n ≠ [] := by
  rw [printNat]
  by_cases h : n < 10 <;> simp [h]

theorem printNat_head (n : Nat) : ∃ c t, printNat n = c :: t ∧ isDigitC c = true := by
  cases hpn : printNat n with
  | nil => exact absurd hpn (printNat_ne_nil n)
  | cons c t =>
    refine ⟨c, t, rfl, ?_⟩
    have hall := printNat_all_digits n
    rw [hpn, List.all_cons, Bool.and_eq_true] at hall
    exact hall.1

theorem readDigits_append (n : Nat) : ∀ (r : Bytes) (acc : Nat),
    readDigits (printNat n ++ r) acc = readDigits r (acc * 10 ^ (printNat n).length + n) := by
  induction n using Nat.strong_induction_on with
  | _ n ih =>
    intro r acc
    rw [printNat]
    by_cases h : n < 10
    · simp [h, readDigits, digitChar_isDigit h, digitVal_digitChar h]
    · simp only [h, if_false]
      rw [List.append_assoc, ih (n / 10) (Nat.div_lt_self (by omega) (by omega)),
        List.singleton_append]
      have hd9 : n % 10 < 10 := Nat.mod_lt _ (by omega)
      simp only [readDigits, digitChar_isDigit hd9, digitVal_digitChar hd9, if_true]
      congr 1
      have hmod : n / 10 * 10 + n % 10 = n := by omega
      calc (acc * 10 ^ (printNat (n / 10)).length + n / 10) * 10 + n % 10
          = acc * (10 ^ (printNat (n / 10)).length * 10) + (n / 10 * 10 + n % 10) := by ring
        _ = acc * 10 ^ (printNat (n / 10) ++ [digitChar (n % 10)]).length + n := by
            rw [hmod, List.length_append, List.length_cons, List.length_nil, pow_succ]

theorem readDigits_stop {r : Bytes} (acc : Nat) (h : sepOk r = true) :
    readDigits r acc = (acc, r) := by
  cases r with
  | nil => rfl
  | cons c t =>
    simp only [sepOk, Bool.not_eq_true'] at h
    simp [readDigits, h]

theorem parseNum_print (i : Int) {r : Bytes} (h : sepOk r = true) :
    parseNum (printInt i ++ r) = .ok (i, r) := by
  rw [printInt]
  by_cases hn : i < 0
  · obtain ⟨c, t, hct, hc⟩ := printNat_head i.natAbs
    simp only [hn, if_true, List.cons_append]
    rw [parseNum.eq_def]
    simp only [show (('-' : Char) == '-') = true from rfl, if_true]
    rw [hct, List.cons_append]
    simp only [hc, if_true]
    rw [← List.cons_append, ← hct, readDigits_append, readDigits_stop _ h]
    simp only [Nat.zero_mul, Nat.zero_add]
    have hab : (-(↑i.natAbs) : Int) = i := by omega
    rw [hab]
  · obtain ⟨c, t, hct, hc⟩ := printNat_head i.natAbs
    rw [hct]
    simp only [hn, if_false, List.cons_append]
    rw [parseNum.eq_def]
    have hcm : (c == '-') = false := by
      apply char_beq_eq_false_of_toNat
      simp only [isDigitC, Bool.and_eq_true, decide_eq_true_eq] at hc
      show c.toNat ≠ 45
      omega
    simp only [hcm, if_false, hc, if_true]
    rw [← List.cons_append, ← hct, readDigits_append, readDigits_stop _ h]
    simp only [Nat.zero_mul, Nat.zero_add]
    have hab : ((↑i.natAbs) : Int) = i := by omega
    rw [hab]
    simp

/-! ### Equation lemmas for the printer, size, and validity functions -/

theorem printJraw_null : printJraw .null = ['n', 'u', 'l', 'l'] := by
  simp [printJraw]
  rfl

theorem printJraw_true : printJraw (.bool true) = ['t', 'r', 'u', 'e'] := by
  simp [printJraw]
  rfl

theorem printJraw_falseLit : printJraw (.bool false) = ['f', 'a', 'l', 's', 'e'] := by
  simp [printJraw]
  rfl

theorem printJraw_num (n : Int) : printJraw (.num n) = printInt n := by
  simp [printJraw]

theorem printJraw_str (s : String) : printJraw (.str s) = printQuoted s := by
  simp [printJraw]

theorem printJraw_arr (xs : List Jval) :
    printJraw (.arr xs) = '[' :: printElemsRaw xs ++ [']'] := by
  simp [printJraw]

theorem printJraw_obj (fs : List (String × Jval)) :
    printJraw (.obj fs) = lbrace :: printFieldsRaw fs ++ [rbrace] := by
  simp [printJraw]

theorem printElemsRaw_nil : printElemsRaw [] = [] := by simp [printElemsRaw]

theorem printElemsRaw_single (x : Jval) : printElemsRaw [x] = printJraw x := by
  simp [printElemsRaw]

theorem printElemsRaw_cons2 (x y : Jval) (t : List Jval) :
    printElemsRaw (x :: y :: t) = printJraw x ++ ',' :: printElemsRaw (y :: t) := by
  simp [printElemsRaw]

theorem printFieldsRaw_nil : printFieldsRaw [] = [] := by simp [printFieldsRaw]

theorem printFieldsRaw_single (k : String) (v : Jval) :
    printFieldsRaw [(k, v)] = printQuoted k ++ ':' :: printJraw v := by
  simp [printFieldsRaw]

theorem printFieldsRaw_cons2 (k : String) (v : Jval) (q : String × Jval)
    (t : List (String × Jval)) :
    printFieldsRaw ((k, v) :: q :: t) = printQuoted k ++ ':' :: printJraw v ++ ',' :: printFieldsRaw (q :: t) := by
  simp [printFieldsRaw]

theorem szV_null : szV .null = 1 := by simp [szV]

theorem szV_bool (b : Bool) : szV (.bool b) = 1 := by simp [szV]

theorem szV_num (n : Int) : szV (.num n) = 1 := by simp [szV]

theorem szV_str (s : String) : szV (.str s) = 1 := by simp [szV]

theorem szV_arr (xs : List Jval) : szV (.arr xs) = 1 + szL xs := by simp [szV]

theorem szV_obj (fs : List (String × Jval)) : szV (.obj fs) = 1 + szF fs := by simp [szV]

theorem szL_nil : szL [] = 0 := by simp [szL]

theorem szL_cons (x : Jval) (t : List Jval) : szL (x :: t) = 1 + szV x + szL t := by
  simp [szL]

theorem szF_nil : szF [] = 0 := by simp [szF]

theorem szF_cons (k : String) (v : Jval) (t : List (String × Jval)) :
    szF ((k, v) :: t) = 1 + szV v + szF t := by
  simp [szF]

theorem rawGood_null : rawGoodB .null = true := by simp [rawGoodB]

theorem rawGood_bool (b : Bool) : rawGoodB (.bool b) = true := by simp [rawGoodB]

theorem rawGood_num (n : Int) : rawGoodB (.num n) = true := by simp [rawGoodB]

theorem rawGood_str (s : String) : rawGoodB (.str s) = plainStrB s := by simp [rawGoodB]

theorem rawGood_arr (xs : List Jval) : rawGoodB (.arr xs) = rawGoodLB xs := by
  simp [rawGoodB]

theorem rawGood_obj (fs : List (String × Jval)) : rawGoodB (.obj fs) = rawGoodFB fs := by
  simp [rawGoodB]

theorem rawGood_unsupported : rawGoodB .unsupported = false := by simp [rawGoodB]

theorem rawGoodLB_cons (x : Jval) (t : List Jval) :
    rawGoodLB (x :: t) = (rawGoodB x && rawGoodLB t) := by simp [rawGoodLB]

theorem rawGoodFB_cons (k : String) (v : Jval) (t : List (String × Jval)) :
    rawGoodFB ((k, v) :: t) = (plainStrB k && rawGoodB v && rawGoodFB t) := by
  simp [rawGoodFB]

/-! ### Head shape of printed values -/

theorem digit_guards {c : Char} (h : isDigitC c = true) :
    (c == '"') = false ∧ (c == lbrace) = false ∧ (c == '[') = false ∧ (c == 't') = false ∧
    (c == 'f') = false ∧ (c == 'n') = false ∧ isWsC c = false ∧ (c == ']') = false ∧
    (c == rbrace) = false := by
  simp only [isDigitC, Bool.and_eq_true, decide_eq_true_eq] at h
  refine ⟨char_beq_eq_false_of_toNat (show c.toNat ≠ 34 by omega),
    char_beq_eq_false_of_toNat (show c.toNat ≠ 123 by omega),
    char_beq_eq_false_of_toNat (show c.toNat ≠ 91 by omega),
    char_beq_eq_false_of_toNat (show c.toNat ≠ 116 by omega),
    char_beq_eq_false_of_toNat (show c.toNat ≠ 102 by omega),
    char_beq_eq_false_of_toNat (show c.toNat ≠ 110 by omega), ?_,
    char_beq_eq_false_of_toNat (show c.toNat ≠ 93 by omega),
    char_beq_eq_false_of_toNat (show c.toNat ≠ 125 by omega)⟩
  rw [isWsC_eq_toNat]
  simp only [Bool.or_eq_false_iff]
  refine ⟨⟨⟨?_, ?_⟩, ?_⟩, ?_⟩ <;> simp <;> omega

/-- The first character of a printed value: never whitespace, never a closing
bracket or brace. -/
theorem printJraw_cons {v : Jval} (hv : rawGoodB v = true) :
    ∃ c t, printJraw v = c :: t ∧ isWsC c = false ∧ (c == ']') = false ∧
      (c == rbrace) = false := by
  cases v with
  | null => exact ⟨'n', _, printJraw_null, by decide, by decide, by decide⟩
  | bool b =>
    cases b with
    | true => exact ⟨'t', _, printJraw_true, by decide, by decide, by decide⟩
    | false => exact ⟨'f', _, printJraw_falseLit, by decide, by decide, by decide⟩
  | num n =>
    rw [printJraw_num, printInt]
    by_cases hn : n < 0
    · exact ⟨'-', _, by rw [if_pos hn], by decide, by decide, by decide⟩
    · obtain ⟨c, t, hct, hc⟩ := printNat_head n.natAbs
      obtain ⟨_, _, _, _, _, _, hw, he1, he2⟩ := digit_guards hc
      exact ⟨c, t ++ [], by rw [if_neg hn, hct]; simp, hw, he1, he2⟩
  | str s =>
    exact ⟨'"', escAll s.data ++ ['"'], by rw [printJraw_str, printQuoted, List.cons_append], by decide,
      by decide, by decide⟩
  | arr xs =>
    exact ⟨'[', printElemsRaw xs ++ [']'], by rw [printJraw_arr, List.cons_append], by decide, by decide,
      by decide⟩
  | obj fs =>
    exact ⟨lbrace, printFieldsRaw fs ++ [rbrace], by rw [printJraw_obj, List.cons_append], by decide,
      by decide, by decide⟩
  | unsupported => rw [rawGood_unsupported] at hv; exact absurd hv (by simp)

theorem skipWs_print {v : Jval} (hv : rawGoodB v = true) (r : Bytes) :
    skipWs (printJraw v ++ r) = printJraw v ++ r := by
  obtain ⟨c, t, hct, hws, _, _⟩ := printJraw_cons hv
  rw [hct, List.cons_append, skipWs_cons _ hws]

theorem annotL_fst (xs : List Jval) : (annotL xs).map Prod.fst = xs := by
  unfold annotL
  induction xs with
  | nil => rfl
  | cons x t ih => simpa using ih

theorem annotF_proj (fs : List (String × Jval)) :
    (annotF fs).map (fun m => (m.1, m.2.1)) = fs := by
  unfold annotF
  induction fs with
  | nil => rfl
  | cons p t ih => simpa using ih

/-! ### Size bounds: fuel requirement versus printed length -/

theorem printQuoted_two_le (s : String) : 2 ≤ (printQuoted s).length := by
  rw [printQuoted]
  simp

theorem printInt_ne_nil (i : Int) : printInt i ≠ [] := by
  rw [printInt]
  by_cases h : i < 0
  · simp [h]
  · simp [h, printNat_ne_nil]

theorem sz_le_print : ∀ n : Nat,
    (∀ v : Jval, sizeOf v ≤ n → szV v ≤ (printJraw v).length) ∧
    (∀ xs : List Jval, sizeOf xs ≤ n → szL xs ≤ (printElemsRaw xs).length + 1) ∧
    (∀ fs : List (String × Jval), sizeOf fs ≤ n → szF fs ≤ (printFieldsRaw fs).length + 1) := by
  intro n
  induction n using Nat.strong_induction_on with
  | _ n ih =>
    refine ⟨?_, ?_, ?_⟩
    · intro v hn
      cases v with
      | null => rw [szV_null, printJraw_null]; simp
      | bool b =>
        cases b with
        | true => rw [szV_bool, printJraw_true]; simp
        | false => rw [szV_bool, printJraw_falseLit]; simp
      | num m =>
        rw [szV_num, printJraw_num]
        cases h : printInt m with
        | nil => exact absurd h (printInt_ne_nil m)
        | cons c t => simp
      | str s =>
        rw [szV_str, printJraw_str]
        have := printQuoted_two_le s
        omega
      | arr xs =>
        have hx : sizeOf xs < n := by
          have : sizeOf (Jval.arr xs) = 1 + sizeOf xs := by simp
          omega
        have h1 := (ih _ hx).2.1 xs le_rfl
        rw [szV_arr, printJraw_arr]
        simp only [List.cons_append, List.length_cons, List.length_append]
        simp at h1 ⊢
        omega
      | obj fs =>
        have hx : sizeOf fs < n := by
          have : sizeOf (Jval.obj fs) = 1 + sizeOf fs := by simp
          omega
        have h1 := (ih _ hx).2.2 fs le_rfl
        rw [szV_obj, printJraw_obj]
        simp only [List.cons_append, List.length_cons, List.length_append]
        simp at h1 ⊢
        omega
      | unsupported => simp [szV]
    · intro xs hn
      cases xs with
      | nil => rw [szL_nil]; omega
      | cons x t =>
        have hsz : sizeOf (x :: t) = 1 + sizeOf x + sizeOf t := by simp
        have hx : sizeOf x < n := by omega
        have ht : sizeOf t < n := by omega
        have h1 := (ih _ hx).1 x le_rfl
        have h2 := (ih _ ht).2.1 t le_rfl
        rw [szL_cons]
        cases t with
        | nil =>
          rw [printElemsRaw_single, szL_nil]
          omega
        | cons y t2 =>
          rw [printElemsRaw_cons2]
          simp only [List.length_append, List.length_cons]
          omega
    · intro fs hn
      cases fs with
      | nil => rw [szF_nil]; omega
      | cons p t =>
        obtain ⟨k, v⟩ := p
        have hsz : sizeOf ((k, v) :: t) = 1 + (1 + sizeOf k + sizeOf v) + sizeOf t := by simp
        have hx : sizeOf v < n := by omega
        have ht : sizeOf t < n := by omega
        have h1 := (ih _ hx).1 v le_rfl
        have h2 := (ih _ ht).2.2 t le_rfl
        have hq := printQuoted_two_le k
        rw [szF_cons]
        cases t with
        | nil =>
          rw [printFieldsRaw_single, szF_nil]
          simp only [List.length_append, List.length_cons]
          omega
        | cons q t2 =>
          rw [printFieldsRaw_cons2]
          simp only [List.length_append, List.length_cons]
          omega

/-- Trailing part of a printed member or element list after the first item. -/
def tailSep {α : Type} (sep : Bytes) : List α → Bytes
  | [] => []
  | _ :: _ => sep

theorem printElemsRaw_consT (x : Jval) (t : List Jval) :
    printElemsRaw (x :: t) = printJraw x ++ (tailSep (',' :: printElemsRaw t) t) := by
  cases t with
  | nil => simp [printElemsRaw_single, tailSep]
  | cons y t2 => simp [printElemsRaw_cons2, tailSep]

theorem printFieldsRaw_consT (k : String) (v : Jval) (t : List (String × Jval)) :
    printFieldsRaw ((k, v) :: t) =
      (printQuoted k ++ ':' :: printJraw v) ++ (tailSep (',' :: printFieldsRaw t) t) := by
  cases t with
  | nil => simp [printFieldsRaw_single, tailSep]
  | cons q t2 => simp [printFieldsRaw_cons2, tailSep]

theorem szV_pos {v : Jval} (hv : rawGoodB v = true) : 1 ≤ szV v := by
  cases v with
  | unsupported => rw [rawGood_unsupported] at hv; exact absurd hv (by simp)
  | null => simp [szV_null]
  | bool b => simp [szV_bool]
  | num n => simp [szV_num]
  | str s => simp [szV_str]
  | arr xs => rw [szV_arr]; omega
  | obj fs => rw [szV_obj]; omega

theorem take_diff (a b : Bytes) : (a ++ b).take ((a ++ b).length - b.length) = a := by
  rw [List.length_append, Nat.add_sub_cancel]
  exact List.take_left a b

/-- The JSON parser inverts the canonical printer on escape-free values.
All three mutual parsing functions are characterized at once: on input that
is the canonical text of a value (member list, element list) followed by the
appropriate context, the parser returns exactly the printed value and the
context, with each member and element annotated by its exact raw text. -/
theorem parse_print (f : Nat) :
    (∀ (v : Jval) (r : Bytes), szV v ≤ f → rawGoodB v = true → sepOk r = true →
      parseVal f (printJraw v ++ r) = .ok (v, r)) ∧
    (∀ (fs : List (String × Jval)) (r : Bytes), szF fs ≤ f → fs ≠ [] → rawGoodFB fs = true →
      parseMembers f (printFieldsRaw fs ++ rbrace :: r) = .ok (annotF fs, r)) ∧
    (∀ (xs : List Jval) (r : Bytes), szL xs ≤ f → xs ≠ [] → rawGoodLB xs = true →
      parseElems f (printElemsRaw xs ++ ']' :: r) = .ok (annotL xs, r)) := by
  induction f with
  | zero =>
    refine ⟨fun v r h hv _ => absurd h (by have := szV_pos hv; omega),
      fun fs r h hne _ => absurd h ?_, fun xs r h hne _ => absurd h ?_⟩
    · cases fs with
      | nil => exact absurd rfl hne
      | cons p t => obtain ⟨k, v⟩ := p; rw [szF_cons]; omega
    · cases xs with
      | nil => exact absurd rfl hne
      | cons x t => rw [szL_cons]; omega
  | succ f ih =>
    obtain ⟨PV, PM, PE⟩ := ih
    refine ⟨?_, ?_, ?_⟩
    · -- parseVal
      intro v r hsz hv hsep
      cases v with
      | null =>
        rw [printJraw_null]
        simp [parseVal, lbrace, rbrace]
      | bool b =>
        cases b with
        | true => rw [printJraw_true]; simp [parseVal, lbrace, rbrace]
        | false => rw [printJraw_falseLit]; simp [parseVal, lbrace, rbrace]
      | num n =>
        have hnum := parseNum_print n hsep
        rw [printJraw_num]
        rw [printInt] at hnum ⊢
        by_cases hn : n < 0
        · rw [if_pos hn, List.cons_append] at hnum ⊢
          simp [parseVal, lbrace, rbrace, hnum]
        · obtain ⟨c, t, hct, hc⟩ := printNat_head n.natAbs
          obtain ⟨g1, g2, g3, g4, g5, g6, _, _, _⟩ := digit_guards hc
          rw [if_neg hn, hct, List.cons_append] at hnum ⊢
          simp [parseVal, g1, g2, g3, g4, g5, g6, hc, hnum]
      | str s =>
        rw [rawGood_str] at hv
        rw [printJraw_str, printQuoted_plain hv]
        simp only [List.cons_append, List.append_assoc, List.singleton_append]
        rw [plainStrB] at hv
        simp [parseVal, parseStrBody_plain r hv, strMk_data]
      | arr xs =>
        rw [rawGood_arr] at hv
        rw [printJraw_arr]
        simp only [List.cons_append, List.append_assoc, List.singleton_append]
        cases xs with
        | nil =>
          rw [printElemsRaw_nil, List.nil_append]
          simp [parseVal, lbrace, rbrace, annotL,
            skipWs_cons _ (show isWsC ']' = false from rfl)]
        | cons x t =>
          rw [szV_arr] at hsz
          have hE := PE (x :: t) r (by omega) (by simp) hv
          have hx : rawGoodB x = true := by
            rw [rawGoodLB_cons, Bool.and_eq_true] at hv
            exact hv.1
          obtain ⟨c, t2, hct, hws, hne1, hne2⟩ := printJraw_cons hx
          rw [printElemsRaw_consT, hct] at hE ⊢
          simp only [List.cons_append, List.append_assoc, List.nil_append] at hE ⊢
          simp [parseVal, skipWs_cons _ hws, hne1, hE, annotL_fst,
            show ('[' == '"') = false from rfl,
            show ('[' == lbrace) = false from by decide]
      | obj fs =>
        rw [rawGood_obj] at hv
        rw [printJraw_obj]
        simp only [List.cons_append, List.append_assoc, List.singleton_append]
        cases fs with
        | nil =>
          rw [printFieldsRaw_nil, List.nil_append]
          simp [parseVal, annotF, show (lbrace == '"') = false from by decide,
            show (lbrace == lbrace) = true from by decide,
            skipWs_cons _ (show isWsC rbrace = false from by decide),
            show (rbrace == rbrace) = true from by decide]
        | cons p t =>
          obtain ⟨k, v0⟩ := p
          rw [szV_obj] at hsz
          have hMm := PM ((k, v0) :: t) r (by omega) (by simp) hv
          have hk : plainStrB k = true := by
            rw [rawGoodFB_cons, Bool.and_eq_true, Bool.and_eq_true] at hv
            exact hv.1.1
          rw [printFieldsRaw_consT, printQuoted_plain hk] at hMm ⊢
          simp only [List.cons_append, List.append_assoc, List.nil_append] at hMm ⊢
          simp [parseVal, skipWs_cons _ (show isWsC '"' = false from rfl), hMm, annotF_proj,
            show (lbrace == '"') = false from by decide,
            show (lbrace == lbrace) = true from by decide,
            show ('"' == rbrace) = false from by decide]
      | unsupported => rw [rawGood_unsupported] at hv; exact absurd hv (by simp)
    · -- parseMembers
      intro fs r hsz hne hv
      cases fs with
      | nil => exact absurd rfl hne
      | cons p t =>
        obtain ⟨k, v⟩ := p
        rw [rawGoodFB_cons, Bool.and_eq_true, Bool.and_eq_true] at hv
        obtain ⟨⟨hk, hv0⟩, ht⟩ := hv
        rw [szF_cons] at hsz
        rw [printFieldsRaw_consT, printQuoted_plain hk]
        simp only [List.cons_append, List.append_assoc, List.nil_append]
        rw [plainStrB] at hk
        have hsep2 : sepOk ((tailSep (',' :: printFieldsRaw t) t : Bytes) ++ rbrace :: r) = true := by
          cases t with
          | nil => rfl
          | cons q t2 => rfl
        have hPV := PV v _ (by omega) hv0 hsep2
        cases t with
        | nil =>
          simp only [tailSep, List.nil_append] at hPV ⊢
          simp [parseMembers, skipWs_cons _ (show isWsC '"' = false from rfl),
            parseStrBody_plain _ hk,
            skipWs_cons _ (show isWsC ':' = false from rfl),
            skipWs_print hv0, hPV, take_diff, annotF, strMk_data,
            skipWs_cons _ (show isWsC rbrace = false from by decide),
            show (rbrace == ',') = false from by decide,
            show (rbrace == rbrace) = true from by decide]
        | cons q t2 =>
          have hMt := PM (q :: t2) r (by omega) (by simp) ht
          simp only [tailSep, List.cons_append] at hPV ⊢
          simp [parseMembers, skipWs_cons _ (show isWsC '"' = false from rfl),
            parseStrBody_plain _ hk,
            skipWs_cons _ (show isWsC ':' = false from rfl),
            skipWs_print hv0, hPV, hMt, take_diff, annotF, strMk_data,
            skipWs_cons _ (show isWsC ',' = false from rfl)]
    · -- parseElems
      intro xs r hsz hne hv
      cases xs with
      | nil => exact absurd rfl hne
      | cons x t =>
        rw [rawGoodLB_cons, Bool.and_eq_true] at hv
        obtain ⟨hx, ht⟩ := hv
        rw [szL_cons] at hsz
        rw [printElemsRaw_consT]
        simp only [List.cons_append, List.append_assoc, List.nil_append]
        have hsep2 : sepOk ((tailSep (',' :: printElemsRaw t) t : Bytes) ++ ']' :: r) = true := by
          cases t with
          | nil => rfl
          | cons y t2 => rfl
        have hPV := PV x _ (by omega) hx hsep2
        cases t with
        | nil =>
          simp only [tailSep, List.nil_append] at hPV ⊢
          simp [parseElems, skipWs_print hx, hPV, take_diff, annotL,
            skipWs_cons _ (show isWsC ']' = false from rfl)]
        | cons y t2 =>
          have hEt := PE (y :: t2) r (by omega) (by simp) ht
          simp only [tailSep, List.cons_append] at hPV ⊢
          simp [parseElems, skipWs_print hx, hPV, hEt, take_diff, annotL,
            skipWs_cons _ (show isWsC ',' = false from rfl)]

/-! ### Order facts and canonical maps -/

theorem lexLt_irrefl : ∀ l : List Char, lexLt l l = false
  | [] => rfl
  | a :: as => by
    rw [lexLt]
    simp [lexLt_irrefl as]

theorem lexLt_asymm : ∀ a b : List Char, lexLt a b = true → lexLt b a = false
  | [], [] => by simp [lexLt]
  | [], _ :: _ => by intro _; rfl
  | _ :: _, [] => by intro h; exact absurd h (by rw [lexLt]; simp)
  | a :: as, b :: bs => by
    intro h
    rw [lexLt] at h ⊢
    by_cases h1 : a.toNat < b.toNat
    · simp [h1, Nat.not_lt.mpr (Nat.le_of_lt h1), Nat.lt_asymm h1]
    · by_cases h2 : b.toNat < a.toNat
      · simp [h1, h2] at h
      · simp [h1, h2] at h ⊢
        exact lexLt_asymm as bs h

theorem lexLt_trans : ∀ a b c : List Char, lexLt a b = true → lexLt b c = true →
    lexLt a c = true
  | [], b, [] => by
    intro _ h2
    cases b with
    | nil => exact absurd h2 (by rw [lexLt]; simp)
    | cons x xs => exact absurd h2 (by rw [lexLt]; simp)
  | [], _, _ :: _ => by intro _ _; rfl
  | _ :: _, [], _ => by intro h _; exact absurd h (by rw [lexLt]; simp)
  | _ :: _, _ :: _, [] => by intro _ h2; exact absurd h2 (by rw [lexLt]; simp)
  | a :: as, b :: bs, c :: cs => by
    intro h1 h2
    rw [lexLt] at h1 h2 ⊢
    by_cases e1 : a.toNat < b.toNat
    · by_cases e2 : b.toNat < c.toNat
      · simp [show a.toNat < c.toNat by omega]
      · by_cases e3 : c.toNat < b.toNat
        · simp [e2, e3] at h2
        · have : b.toNat = c.toNat := by omega
          simp [show a.toNat < c.toNat by omega]
    · by_cases e4 : b.toNat < a.toNat
      · simp [e1, e4] at h1
      · have eab : a.toNat = b.toNat := by omega
        by_cases e2 : b.toNat < c.toNat
        · simp [show a.toNat < c.toNat by omega]
        · by_cases e3 : c.toNat < b.toNat
          · simp [e2, e3] at h2
          · simp [e1, e4] at h1
            simp [e2, e3] at h2
            simp [show ¬a.toNat < c.toNat by omega, show ¬c.toNat < a.toNat by omega]
            exact lexLt_trans as bs cs h1 h2

theorem keyLt_ne {a b : String} (h : keyLt a b = true) : a ≠ b := by
  intro e
  subst e
  rw [keyLt, lexLt_irrefl] at h
  exact absurd h (by simp)

theorem keyLt_asymm_f {a b : String} (h : keyLt a b = true) : keyLt b a = false :=
  lexLt_asymm _ _ h

theorem keyLt_trans {a b c : String} (h1 : keyLt a b = true) (h2 : keyLt b c = true) :
    keyLt a c = true :=
  lexLt_trans _ _ _ h1 h2

theorem sortedKeysB_cons {p q : String × Jval} {t : List (String × Jval)}
    (h : sortedKeysB (p :: q :: t) = true) :
    keyLt p.1 q.1 = true ∧ sortedKeysB (q :: t) = true := by
  obtain ⟨k1, v1⟩ := p
  obtain ⟨k2, v2⟩ := q
  rw [sortedKeysB, Bool.and_eq_true] at h
  exact h

theorem sortedKeysB_pairwise : ∀ {l : List (String × Jval)}, sortedKeysB l = true →
    l.Pairwise (fun a b => keyLt a.1 b.1 = true)
  | [], _ => List.Pairwise.nil
  | [p], _ => by simp
  | p :: q :: t, h => by
    obtain ⟨h1, h2⟩ := sortedKeysB_cons h
    have ih := sortedKeysB_pairwise h2
    refine List.Pairwise.cons ?_ ih
    intro b hb
    rcases List.mem_cons.mp hb with e | hm
    · subst e; exact h1
    · rcases ih with _ | ⟨hq, _⟩
      exact keyLt_trans h1 (hq b hm)

theorem sortByKey_sorted : ∀ {l : List (String × Jval)}, sortedKeysB l = true →
    sortByKey l = l
  | [], _ => rfl
  | [p], _ => rfl
  | p :: q :: t, h => by
    obtain ⟨h1, h2⟩ := sortedKeysB_cons h
    show insertByKey p (sortByKey (q :: t)) = p :: q :: t
    rw [sortByKey_sorted h2, insertByKey, if_pos h1]

theorem mapInsert_gt : ∀ (acc : List (String × Jval)) (k : String) (v : Jval),
    (∀ q ∈ acc, keyLt q.1 k = true) → mapInsert acc k v = acc ++ [(k, v)]
  | [], k, v, _ => rfl
  | (k0, v0) :: t, k, v, h => by
    have hk0 := h (k0, v0) (List.mem_cons_self _ _)
    rw [mapInsert]
    rw [if_neg (fun e => keyLt_ne hk0 e.symm), if_neg (by simp [keyLt_asymm_f hk0])]
    rw [mapInsert_gt t k v (fun q hq => h q (List.mem_cons_of_mem _ hq))]
    simp

theorem canonF_sorted : ∀ (fs acc : List (String × Jval)),
    (acc ++ fs).Pairwise (fun a b => keyLt a.1 b.1 = true) →
    (∀ p ∈ fs, canonJ p.2 = p.2) → canonF acc fs = acc ++ fs
  | [], acc, _, _ => by simp [canonF]
  | (k, v) :: t, acc, hp, hc => by
    rw [canonF]
    have hcv : canonJ v = v := hc (k, v) (List.mem_cons_self _ _)
    rw [hcv]
    have hgt : ∀ q ∈ acc, keyLt q.1 k = true := by
      intro q hq
      have := (List.pairwise_append.mp hp).2.2 q hq (k, v) (List.mem_cons_self _ _)
      exact this
    rw [mapInsert_gt acc k v hgt]
    have hp2 : ((acc ++ [(k, v)]) ++ t).Pairwise (fun a b => keyLt a.1 b.1 = true) := by
      rw [List.append_assoc, List.singleton_append]
      exact hp
    rw [canonF_sorted t (acc ++ [(k, v)]) hp2
      (fun p hp3 => hc p (List.mem_cons_of_mem _ hp3))]
    simp

/-! ### Good values are fixed by sorting and canonicalization -/

theorem good_chain : ∀ n : Nat,
    (∀ v : Jval, sizeOf v ≤ n → goodJB v = true →
      rawGoodB v = true ∧ hasUnsupported v = false ∧ sortDeep v = v ∧ canonJ v = v) ∧
    (∀ xs : List Jval, sizeOf xs ≤ n → goodLB xs = true →
      rawGoodLB xs = true ∧ hasUnsupportedL xs = false ∧ sortDeepL xs = xs ∧ canonL xs = xs) ∧
    (∀ fs : List (String × Jval), sizeOf fs ≤ n → goodFB fs = true →
      rawGoodFB fs = true ∧ hasUnsupportedF fs = false ∧ sortDeepF fs = fs ∧
        (∀ p ∈ fs, canonJ p.2 = p.2)) := by
  intro n
  induction n using Nat.strong_induction_on with
  | _ n ih =>
    refine ⟨?_, ?_, ?_⟩
    · intro v hn hg
      cases v with
      | null => exact ⟨rfl, rfl, rfl, rfl⟩
      | bool b => exact ⟨rfl, rfl, rfl, rfl⟩
      | num m => exact ⟨rfl, rfl, rfl, rfl⟩
      | str s =>
        rw [goodJB] at hg
        exact ⟨by rw [rawGood_str]; exact hg, rfl, rfl, rfl⟩
      | arr xs =>
        rw [goodJB] at hg
        have hx : sizeOf xs < n := by
          have : sizeOf (Jval.arr xs) = 1 + sizeOf xs := by simp
          omega
        obtain ⟨r1, r2, r3, r4⟩ := (ih _ hx).2.1 xs le_rfl hg
        refine ⟨by rw [rawGood_arr]; exact r1, ?_, ?_, ?_⟩
        · rw [hasUnsupported]; exact r2
        · rw [sortDeep]; rw [r3]
        · rw [canonJ]; rw [r4]
      | obj fs =>
        rw [goodJB, Bool.and_eq_true] at hg
        obtain ⟨hsort, hgf⟩ := hg
        have hx : sizeOf fs < n := by
          have : sizeOf (Jval.obj fs) = 1 + sizeOf fs := by simp
          omega
        obtain ⟨r1, r2, r3, r4⟩ := (ih _ hx).2.2 fs le_rfl hgf
        refine ⟨by rw [rawGood_obj]; exact r1, ?_, ?_, ?_⟩
        · rw [hasUnsupported]; exact r2
        · rw [sortDeep, r3, sortByKey_sorted hsort]
        · rw [canonJ, canonF_sorted fs [] (by simpa using sortedKeysB_pairwise hsort) r4]
          simp
      | unsupported => rw [goodJB] at hg; exact absurd hg (by simp)
    · intro xs hn hg
      cases xs with
      | nil => exact ⟨rfl, rfl, rfl, rfl⟩
      | cons x t =>
        rw [goodLB, Bool.and_eq_true] at hg
        obtain ⟨hgx, hgt⟩ := hg
        have hsz : sizeOf (x :: t) = 1 + sizeOf x + sizeOf t := by simp
        obtain ⟨a1, a2, a3, a4⟩ := (ih _ (by omega)).1 x le_rfl hgx
        obtain ⟨b1, b2, b3, b4⟩ := (ih _ (by omega)).2.1 t le_rfl hgt
        refine ⟨?_, ?_, ?_, ?_⟩
        · rw [rawGoodLB_cons]; simp [a1, b1]
        · rw [hasUnsupportedL]; simp [a2, b2]
        · rw [sortDeepL, a3, b3]
        · rw [canonL, a4, b4]
    · intro fs hn hg
      cases fs with
      | nil => exact ⟨rfl, rfl, rfl, by simp⟩
      | cons p t =>
        obtain ⟨k, v⟩ := p
        rw [goodFB, Bool.and_eq_true, Bool.and_eq_true] at hg
        obtain ⟨⟨hk, hgv⟩, hgt⟩ := hg
        have hsz : sizeOf ((k, v) :: t) = 1 + (1 + sizeOf k + sizeOf v) + sizeOf t := by simp
        obtain ⟨a1, a2, a3, a4⟩ := (ih _ (by omega)).1 v le_rfl hgv
        obtain ⟨b1, b2, b3, b4⟩ := (ih _ (by omega)).2.2 t le_rfl hgt
        refine ⟨?_, ?_, ?_, ?_⟩
        · rw [rawGoodFB_cons]; simp [hk, a1, b1]
        · rw [hasUnsupportedF]; simp [a2, b2]
        · rw [sortDeepF, a3, b3]
        · intro q hq
          rcases List.mem_cons.mp hq with e | hm
          · subst e; exact a4
          · exact b4 q hm

theorem goodJB_raw {v : Jval} (h : goodJB v = true) : rawGoodB v = true :=
  ((good_chain (sizeOf v)).1 v le_rfl h).1

theorem goodFB_raw {fs : List (String × Jval)} (h : goodFB fs = true) :
    rawGoodFB fs = true :=
  ((good_chain (sizeOf fs)).2.2 fs le_rfl h).1

theorem jsonMarshal_good {v : Jval} (h : goodJB v = true) :
    jsonMarshal v = .ok (printJraw v) := by
  obtain ⟨_, hu, hs, _⟩ := (good_chain (sizeOf v)).1 v le_rfl h
  rw [jsonMarshal, hu, hs]
  simp

/-! ### Top-level document parsing of printed objects -/

theorem printFieldsRaw_head (k : String) (v : Jval) (t : List (String × Jval)) :
    ∃ u, printFieldsRaw ((k, v) :: t) = '"' :: u := by
  rw [printFieldsRaw_consT, printQuoted]
  exact ⟨escAll k.data ++ '"' :: ':' :: (printJraw v ++ tailSep (',' :: printFieldsRaw t) t),
    by simp⟩

theorem parseTopFields_print {fs : List (String × Jval)} (h : rawGoodFB fs = true) :
    parseTopFields (printJraw (.obj fs)) = .ok (some (annotF fs)) := by
  rw [printJraw_obj]
  cases fs with
  | nil =>
    rw [printFieldsRaw_nil]
    simp [parseTopFields, skipWs, annotF,
      show isWsC lbrace = false from by decide,
      show isWsC rbrace = false from by decide,
      show (lbrace == lbrace) = true from by decide,
      show (rbrace == rbrace) = true from by decide]
  | cons p t =>
    obtain ⟨k, v⟩ := p
    obtain ⟨u, hu⟩ := printFieldsRaw_head k v t
    have hlen : szF ((k, v) :: t) ≤
        ((lbrace :: printFieldsRaw ((k, v) :: t)) ++ [rbrace]).length + 1 := by
      have := (sz_le_print (sizeOf ((k, v) :: t))).2.2 ((k, v) :: t) le_rfl
      simp only [List.length_append, List.length_cons]
      omega
    have hpm := (parse_print (((lbrace :: printFieldsRaw ((k, v) :: t)) ++ [rbrace]).length + 1)).2.1
      ((k, v) :: t) [] hlen (by simp) h
    rw [hu] at hpm
    simp only [List.cons_append, List.append_assoc, List.nil_append] at hpm
    rw [hu]
    simp only [parseTopFields, List.cons_append, List.append_assoc, List.length_cons,
      List.length_append]
    rw [skipWs_cons _ (show isWsC lbrace = false from by decide)]
    simp only [show (lbrace == lbrace) = true from by decide, if_true]
    rw [skipWs_cons _ (show isWsC '"' = false from rfl)]
    simp only [show (('"' : Char) == rbrace) = false from by decide, if_false]
    have hfe : (lbrace :: '"' :: (u ++ [rbrace])).length + 1 = u.length + 1 + 1 + 1 + 1 := by
      simp
    rw [hfe] at hpm
    simp [hpm, skipWs]

/-! ### The payload texts are canonical prints -/

theorem goodJB_obj (fs : List (String × Jval)) :
    goodJB (.obj fs) = (sortedKeysB fs && goodFB fs) := by simp [goodJB]

theorem validRequestB_elim {r : Request} (h : validRequestB r = true) :
    plainStrB r.query = true ∧ plainStrB r.operationName = true ∧
      (∀ m, r.vars = some m → goodJB (.obj m) = true) := by
  rw [validRequestB, Bool.and_eq_true, Bool.and_eq_true] at h
  refine ⟨h.1.1, h.1.2, fun m hm => ?_⟩
  rw [goodJB_obj]
  have := h.2
  rw [hm, goodVarsB] at this
  exact this

theorem marshalPayload_req {r : Request} (h : validRequestB r = true) :
    marshalPayload (.req r) = (printJraw (.obj (reqPayloadJ r)), none) := by
  obtain ⟨hq, hn, hv⟩ := validRequestB_elim h
  obtain ⟨q, vars, n⟩ := r
  simp only at hq hn hv
  have c1 : lit "\x7b\"query\":\"" = [lbrace, '"', 'q', 'u', 'e', 'r', 'y', '"', ':', '"'] := rfl
  have c2 : lit ",\"operationName\":\"" =
    [',', '"', 'o', 'p', 'e', 'r', 'a', 't', 'i', 'o', 'n', 'N', 'a', 'm', 'e', '"', ':', '"'] := rfl
  have c3 : lit ",\"variables\":" =
    [',', '"', 'v', 'a', 'r', 'i', 'a', 'b', 'l', 'e', 's', '"', ':'] := rfl
  have cq : printQuoted "query" = ['"', 'q', 'u', 'e', 'r', 'y', '"'] := rfl
  have co : printQuoted "operationName" =
    ['"', 'o', 'p', 'e', 'r', 'a', 't', 'i', 'o', 'n', 'N', 'a', 'm', 'e', '"'] := rfl
  have cv : printQuoted "variables" =
    ['"', 'v', 'a', 'r', 'i', 'a', 'b', 'l', 'e', 's', '"'] := rfl
  rw [marshalPayload, reqPayloadJ]
  dsimp only
  cases vars with
  | none =>
    dsimp only
    by_cases hne : n = ""
    · subst hne
      simp [printJraw_obj, printFieldsRaw_cons2, printFieldsRaw_single, printJraw_str,
        printQuoted_plain hq, c1, cq]
    · simp [hne, printJraw_obj, printFieldsRaw_cons2, printFieldsRaw_single, printJraw_str,
        printQuoted_plain hq, printQuoted_plain hn, c1, c2, cq, co]
  | some m =>
    have hm := jsonMarshal_good (hv m rfl)
    dsimp only
    rw [hm]
    by_cases hne : n = ""
    · subst hne
      simp [printJraw_obj, printFieldsRaw_cons2, printFieldsRaw_single, printJraw_str,
        printQuoted_plain hq, c1, c3, cq, cv]
    · simp [hne, printJraw_obj, printFieldsRaw_cons2, printFieldsRaw_single, printJraw_str,
        printQuoted_plain hq, printQuoted_plain hn, c1, c2, c3, cq, co, cv]

theorem joinComma_print : ∀ evs : List Jval,
    joinComma (evs.map printJraw) = printElemsRaw evs
  | [] => rfl
  | [x] => by simp [joinComma, printElemsRaw_single]
  | x :: y :: t => by
    have ih := joinComma_print (y :: t)
    simp only [List.map_cons] at ih ⊢
    rw [joinComma, printElemsRaw_cons2, ih]

theorem marshalPayload_resp (dv : Jval) (errs : Option (List Jval)) :
    marshalPayload (.resp ⟨printJraw dv, errs.map (fun evs => evs.map printJraw)⟩) =
      (printJraw (.obj (respPayloadJ dv errs)), none) := by
  have c1 : lit "\x7b\"data\":" = [lbrace, '"', 'd', 'a', 't', 'a', '"', ':'] := rfl
  have c2 : lit ",\"errors\":[" =
    [',', '"', 'e', 'r', 'r', 'o', 'r', 's', '"', ':', '['] := rfl
  have cd : printQuoted "data" = ['"', 'd', 'a', 't', 'a', '"'] := rfl
  have ce : printQuoted "errors" = ['"', 'e', 'r', 'r', 'o', 'r', 's', '"'] := rfl
  rw [marshalPayload]
  unfold respPayloadJ
  dsimp only
  cases errs with
  | none =>
    simp [printJraw_obj, printFieldsRaw_single, c1, cd]
  | some evs =>
    dsimp only [Option.map]
    rw [joinComma_print evs]
    simp [printJraw_obj, printFieldsRaw_cons2, printFieldsRaw_single, printJraw_arr,
      c1, c2, cd, ce]

theorem marshalPayload_srv {e : ServerError} (h : plainStrB e.msg = true) :
    marshalPayload (.srvErr e) = (printJraw (.obj (srvPayloadJ e)), none) := by
  have c1 : lit "\x7b\"msg\":\"" = [lbrace, '"', 'm', 's', 'g', '"', ':', '"'] := rfl
  have c2 : lit "\"\x7d" = ['"', rbrace] := rfl
  have cm : printQuoted "msg" = ['"', 'm', 's', 'g', '"'] := rfl
  rw [marshalPayload, srvPayloadJ]
  simp [printJraw_obj, printFieldsRaw_single, printJraw_str, printQuoted_plain h,
    c1, c2, cm]

/-! ### Decoding the payload texts -/

theorem rawGoodFB_nil : rawGoodFB [] = true := by simp [rawGoodFB]

theorem rawGoodLB_nil : rawGoodLB [] = true := by simp [rawGoodLB]

theorem canonF_good {m : List (String × Jval)} (hs : sortedKeysB m = true)
    (hg : goodFB m = true) : canonF [] m = m := by
  have h4 := ((good_chain (sizeOf m)).2.2 m le_rfl hg).2.2.2
  have := canonF_sorted m [] (by simpa using sortedKeysB_pairwise hs) h4
  simpa using this

theorem rawGoodFB_reqPayload {r : Request} (h : validRequestB r = true) :
    rawGoodFB (reqPayloadJ r) = true := by
  obtain ⟨hq, hn, hv⟩ := validRequestB_elim h
  obtain ⟨q, vars, n⟩ := r
  simp only at hq hn hv
  rw [reqPayloadJ]
  dsimp only
  have p1 : plainStrB "query" = true := by decide
  have p2 : plainStrB "variables" = true := by decide
  have p3 : plainStrB "operationName" = true := by decide
  cases vars with
  | none =>
    by_cases hne : n = ""
    · subst hne
      simp [rawGoodFB_cons, rawGoodFB_nil, rawGood_str, hq, p1]
    · simp [hne, rawGoodFB_cons, rawGoodFB_nil, rawGood_str, hq, hn, p1, p3]
  | some m =>
    have hvm := goodJB_raw (hv m rfl)
    have hm2 : rawGoodFB m = true := by rw [rawGood_obj] at hvm; exact hvm
    by_cases hne : n = ""
    · subst hne
      simp [rawGoodFB_cons, rawGoodFB_nil, rawGood_str, rawGood_obj, hq, hm2, p1, p2]
    · simp [hne, rawGoodFB_cons, rawGoodFB_nil, rawGood_str, rawGood_obj, hq, hn, hm2,
        p1, p2, p3]

theorem unmarshalRequest_print {r : Request} (h : validRequestB r = true) :
    unmarshalRequest (printJraw (.obj (reqPayloadJ r))) ⟨"", none, ""⟩ = .ok r := by
  have hraw := rawGoodFB_reqPayload h
  rw [unmarshalRequest, parseTopFields_print hraw]
  obtain ⟨hq, hn, hv⟩ := validRequestB_elim h
  obtain ⟨q, vars, n⟩ := r
  simp only at hq hn hv
  rw [reqPayloadJ]
  dsimp only
  cases vars with
  | none =>
    by_cases hne : n = ""
    · subst hne
      simp [annotF, applyRequestField, List.foldlM_cons, Bind.bind, Except.bind, Pure.pure, Except.pure]
    · simp [hne, annotF, applyRequestField, List.foldlM_cons, Bind.bind, Except.bind, Pure.pure, Except.pure]
  | some m =>
    have hgm := hv m rfl
    rw [goodJB_obj, Bool.and_eq_true] at hgm
    have hcanon : canonF [] m = m := canonF_good hgm.1 hgm.2
    by_cases hne : n = ""
    · subst hne
      simp [annotF, applyRequestField, List.foldlM_cons, hcanon, Bind.bind, Except.bind, Pure.pure, Except.pure]
    · simp [hne, annotF, applyRequestField, List.foldlM_cons, hcanon, Bind.bind, Except.bind, Pure.pure, Except.pure]

theorem annotL_snd (xs : List Jval) : (annotL xs).map Prod.snd = xs.map printJraw := by
  unfold annotL
  induction xs with
  | nil => rfl
  | cons x t ih => simp [ih]

theorem parseArrayRaws_print {evs : List Jval} (h : rawGoodLB evs = true) :
    parseArrayRaws (printJraw (.arr evs)) = .ok (evs.map printJraw) := by
  rw [printJraw_arr]
  cases evs with
  | nil =>
    rw [printElemsRaw_nil]
    simp [parseArrayRaws, skipWs, isWsC]
  | cons x t =>
    have hx : rawGoodB x = true := by
      rw [rawGoodLB_cons, Bool.and_eq_true] at h
      exact h.1
    obtain ⟨c, t2, hct, hws, hne1, hne2⟩ := printJraw_cons hx
    have hlen : szL (x :: t) ≤ (('[' :: printElemsRaw (x :: t)) ++ [']']).length + 1 := by
      have := (sz_le_print (sizeOf (x :: t))).2.1 (x :: t) le_rfl
      simp only [List.length_append, List.length_cons]
      omega
    have hpe := (parse_print ((('[' :: printElemsRaw (x :: t)) ++ [']']).length + 1)).2.2
      (x :: t) [] hlen (by simp) h
    rw [printElemsRaw_consT, hct] at hpe ⊢
    simp only [List.cons_append, List.append_assoc, List.nil_append,
      List.length_cons, List.length_append, List.length_nil] at hpe ⊢
    simp [parseArrayRaws, skipWs_cons _ hws, hne1, hpe, annotL_snd]

theorem rawGoodFB_respPayload (dv : Jval) (errs : Option (List Jval))
    (hdv : rawGoodB dv = true) (herr : ∀ evs, errs = some evs → rawGoodLB evs = true) :
    rawGoodFB (respPayloadJ dv errs) = true := by
  unfold respPayloadJ
  have p1 : plainStrB "data" = true := by decide
  have p2 : plainStrB "errors" = true := by decide
  cases errs with
  | none => simp [rawGoodFB_cons, rawGoodFB_nil, hdv, p1]
  | some evs =>
    simp [rawGoodFB_cons, rawGoodFB_nil, rawGood_arr, hdv, herr evs rfl, p1, p2]

theorem unmarshalResponse_print (dv : Jval) (errs : Option (List Jval))
    (hdv : rawGoodB dv = true) (herr : ∀ evs, errs = some evs → rawGoodLB evs = true) :
    unmarshalResponse (printJraw (.obj (respPayloadJ dv errs))) ⟨[], none⟩ =
      .ok ⟨printJraw dv, errs.map (fun evs => evs.map printJraw)⟩ := by
  rw [unmarshalResponse, parseTopFields_print (rawGoodFB_respPayload dv errs hdv herr)]
  unfold respPayloadJ
  cases errs with
  | none => simp [annotF, applyResponseField, List.foldlM_cons, Bind.bind, Except.bind, Pure.pure, Except.pure]
  | some evs =>
    simp [annotF, applyResponseField, List.foldlM_cons, Bind.bind, Except.bind, Pure.pure, Except.pure,
      parseArrayRaws_print (herr evs rfl)]

theorem unmarshalServerError_print {e : ServerError} (h : plainStrB e.msg = true) :
    unmarshalServerError (printJraw (.obj (srvPayloadJ e))) ⟨""⟩ = .ok e := by
  have hraw : rawGoodFB (srvPayloadJ e) = true := by
    simp [srvPayloadJ, rawGoodFB_cons, rawGoodFB_nil, rawGood_str, h,
      show plainStrB "msg" = true from by decide]
  rw [unmarshalServerError, parseTopFields_print hraw]
  obtain ⟨msg⟩ := e
  simp [srvPayloadJ, annotF, applyServerErrorField, List.foldlM_cons, Bind.bind, Except.bind, Pure.pure, Except.pure]

/-! ### Envelope-level characterization -/

theorem rawValueTextB_elim {b : Bytes} (h : rawValueTextB b = true) :
    ∃ v, rawGoodB v = true ∧ printJraw v = b := by
  rw [rawValueTextB] at h
  cases hp : parseVal (b.length + 1) b with
  | error e => rw [hp] at h; exact absurd h (by simp)
  | ok p =>
    obtain ⟨v, rest⟩ := p
    rw [hp] at h
    simp only [Bool.and_eq_true, beq_iff_eq] at h
    exact ⟨v, h.1.2, h.2⟩

theorem validErrors_elim : ∀ {es : List Bytes}, es.all rawValueTextB = true →
    ∃ evs : List Jval, rawGoodLB evs = true ∧ es = evs.map printJraw
  | [], _ => ⟨[], rawGoodLB_nil, rfl⟩
  | b :: t, h => by
    rw [List.all_cons, Bool.and_eq_true] at h
    obtain ⟨v, hv, hpv⟩ := rawValueTextB_elim h.1
    obtain ⟨evs, hevs, hmap⟩ := validErrors_elim h.2
    exact ⟨v :: evs, by rw [rawGoodLB_cons]; simp [hv, hevs], by simp [hpv, hmap]⟩

theorem rawGoodFB_env (id ty : String) (pj : Option Jval) (hid : plainStrB id = true)
    (hty : plainStrB ty = true) (hpj : ∀ v, pj = some v → rawGoodB v = true) :
    rawGoodFB (envJ id ty pj) = true := by
  unfold envJ
  have p1 : plainStrB "id" = true := by decide
  have p2 : plainStrB "type" = true := by decide
  have p3 : plainStrB "payload" = true := by decide
  by_cases hie : id = ""
  · cases pj with
    | none => simp [hie, rawGoodFB_cons, rawGoodFB_nil, rawGood_str, hty, p2]
    | some v =>
      simp [hie, rawGoodFB_cons, rawGoodFB_nil, rawGood_str, hty, hpj v rfl, p2, p3]
  · cases pj with
    | none => simp [hie, rawGoodFB_cons, rawGoodFB_nil, rawGood_str, hid, hty, p1, p2]
    | some v =>
      simp [hie, rawGoodFB_cons, rawGoodFB_nil, rawGood_str, hid, hty, hpj v rfl,
        p1, p2, p3]

theorem decodeRaw_env (id ty : String) (pj : Option Jval) (hid : plainStrB id = true)
    (hty : plainStrB ty = true) (hpj : ∀ v, pj = some v → rawGoodB v = true) :
    decodeRawOpMessage (printJraw (.obj (envJ id ty pj))) =
      .ok ⟨id, ty, pj.map printJraw⟩ := by
  rw [decodeRawOpMessage, parseTopFields_print (rawGoodFB_env id ty pj hid hty hpj)]
  unfold envJ
  by_cases hie : id = ""
  · subst hie
    cases pj with
    | none =>
      simp [annotF, applyRawField, List.foldlM_cons, Bind.bind, Except.bind, Pure.pure,
        Except.pure, zeroRawOpMessage]
    | some v =>
      simp [annotF, applyRawField, List.foldlM_cons, Bind.bind, Except.bind, Pure.pure,
        Except.pure, zeroRawOpMessage]
  · cases pj with
    | none =>
      simp [hie, annotF, applyRawField, List.foldlM_cons, Bind.bind, Except.bind,
        Pure.pure, Except.pure, zeroRawOpMessage]
    | some v =>
      simp [hie, annotF, applyRawField, List.foldlM_cons, Bind.bind, Except.bind,
        Pure.pure, Except.pure, zeroRawOpMessage]

theorem MarshalJSON_print (id ty : String) (p : Option payload) (pj : Option Jval)
    (hid : plainStrB id = true) (hty : plainStrB ty = true)
    (hrel : match p, pj with
            | none, none => True
            | some pl, some v => (marshalPayload pl).1 = printJraw v
            | _, _ => False) :
    (operationMessage.MarshalJSON ⟨id, ty, p⟩).1 = printJraw (.obj (envJ id ty pj)) := by
  have ci : lit "\"id\":\"" = ['"', 'i', 'd', '"', ':', '"'] := rfl
  have ct : lit "\"type\":\"" = ['"', 't', 'y', 'p', 'e', '"', ':', '"'] := rfl
  have cp : lit ",\"payload\":" =
    [',', '"', 'p', 'a', 'y', 'l', 'o', 'a', 'd', '"', ':'] := rfl
  have cqi : printQuoted "id" = ['"', 'i', 'd', '"'] := rfl
  have cqt : printQuoted "type" = ['"', 't', 'y', 'p', 'e', '"'] := rfl
  have cqp : printQuoted "payload" = ['"', 'p', 'a', 'y', 'l', 'o', 'a', 'd', '"'] := rfl
  have cc : lit "\"," = ['"', ','] := rfl
  rw [operationMessage.MarshalJSON]
  unfold envJ
  dsimp only
  cases p with
  | none =>
    cases pj with
    | none =>
      by_cases hie : id = ""
      · subst hie
        simp [printJraw_obj, printFieldsRaw_cons2, printFieldsRaw_single, printJraw_str,
          printQuoted_plain hty, ci, ct, cqi, cqt]
      · simp [hie, printJraw_obj, printFieldsRaw_cons2, printFieldsRaw_single,
          printJraw_str, printQuoted_plain hid, printQuoted_plain hty, ci, ct, cc, cqi, cqt]
    | some v => exact absurd hrel (by simp)
  | some pl =>
    cases pj with
    | none => exact absurd hrel (by simp)
    | some v =>
      simp only at hrel
      by_cases hie : id = ""
      · subst hie
        simp [hrel, printJraw_obj, printFieldsRaw_cons2, printFieldsRaw_single,
          printJraw_str, printQuoted_plain hty, ci, ct, cp, cqi, cqt, cqp]
      · simp [hie, hrel, printJraw_obj, printFieldsRaw_cons2, printFieldsRaw_single,
          printJraw_str, printQuoted_plain hid, printQuoted_plain hty, ci, ct, cp, cc,
          cqi, cqt, cqp]

/-! ### The encode/decode round trip on valid envelopes -/

theorem validPayloadB_none (ty : reqType) : validPayloadB ty none = true := by
  simp [validPayloadB]

theorem validPayloadB_req (ty : reqType) (r : Request) :
    validPayloadB ty (some (.req r)) = (decide (ty ∈ requestTypes) && validRequestB r) := by
  simp [validPayloadB]

theorem validPayloadB_resp (ty : reqType) (r : Response) :
    validPayloadB ty (some (.resp r)) = (decide (ty ∈ responseTypes) && validResponseB r) := by
  simp [validPayloadB]

theorem validPayloadB_srv (ty : reqType) (e : ServerError) :
    validPayloadB ty (some (.srvErr e)) = ((ty == gqlError) && plainStrB e.msg) := by
  simp [validPayloadB]

theorem validPayloadB_unknown (ty : reqType) (u : List (String × Jval)) :
    validPayloadB ty (some (.unknown u)) = false := by
  simp [validPayloadB]

theorem validMessageB_elim {m : operationMessage} (h : validMessageB m = true) :
    plainStrB m.id = true ∧ plainStrB m.type = true ∧
      validPayloadB m.type m.payload = true := by
  rw [validMessageB, Bool.and_eq_true, Bool.and_eq_true] at h
  exact ⟨h.1.1, h.1.2, h.2⟩

theorem respTypes_not_req {ty : reqType} (h : ty ∈ responseTypes) :
    ¬ ty ∈ requestTypes := by
  intro h2
  rw [responseTypes] at h
  rw [requestTypes] at h2
  simp only [List.mem_cons, List.not_mem_nil, or_false] at h h2
  rcases h with h | h | h | h | h <;> rcases h2 with h2 | h2 | h2 | h2 <;>
    (subst h; simp_all [gqlConnectionInit, gqlStart, gqlStop, gqlConnectionTerminate,
      gqlConnectionError, gqlConnectionAck, gqlData, gqlComplete, gqlConnectionKeepAlive])

theorem roundTrip_valid {m : operationMessage} (h : validMessageB m = true) :
    operationMessage.UnmarshalJSON zeroOpMessage (m.MarshalJSON).1 = .ok m := by
  obtain ⟨id, ty, p⟩ := m
  obtain ⟨hid, hty, hpv⟩ := validMessageB_elim h
  simp only at hid hty hpv
  cases p with
  | none =>
    rw [MarshalJSON_print id ty none none hid hty trivial]
    rw [operationMessage.UnmarshalJSON, decodeRaw_env id ty none hid hty (by simp)]
    by_cases hie : id = ""
    · subst hie; simp [zeroOpMessage, Option.map]
    · simp [hie, zeroOpMessage, Option.map]
  | some pl =>
    cases pl with
    | req r =>
      rw [validPayloadB_req, Bool.and_eq_true, decide_eq_true_eq] at hpv
      obtain ⟨hmem, hreq⟩ := hpv
      have hP := marshalPayload_req hreq
      rw [MarshalJSON_print id ty (some (.req r)) (some (.obj (reqPayloadJ r))) hid hty
        (by simp only; rw [hP])]
      rw [operationMessage.UnmarshalJSON, decodeRaw_env id ty _ hid hty
        (fun v hv => by
          cases hv
          rw [rawGood_obj]
          exact rawGoodFB_reqPayload hreq)]
      have hlen : ¬ (printJraw (.obj (reqPayloadJ r))).length = 0 := by
        rw [printJraw_obj]; simp
      by_cases hie : id = ""
      · subst hie
        simp [zeroOpMessage, Option.map, hlen, hmem, unmarshalRequest_print hreq]
      · simp [hie, zeroOpMessage, Option.map, hlen, hmem, unmarshalRequest_print hreq]
    | resp r =>
      rw [validPayloadB_resp, Bool.and_eq_true, decide_eq_true_eq] at hpv
      obtain ⟨hmem, hresp⟩ := hpv
      rw [validResponseB, Bool.and_eq_true] at hresp
      obtain ⟨hdata, herrs⟩ := hresp
      obtain ⟨dv, hdv, hpdv⟩ := rawValueTextB_elim hdata
      have hrform : ∃ errs : Option (List Jval),
          (∀ evs, errs = some evs → rawGoodLB evs = true) ∧
          r = ⟨printJraw dv, errs.map (fun evs => evs.map printJraw)⟩ := by
        obtain ⟨d, es⟩ := r
        simp only at hpdv herrs ⊢
        cases es with
        | none => exact ⟨none, by simp, by rw [← hpdv]; rfl⟩
        | some es2 =>
          rw [validErrorsB] at herrs
          obtain ⟨evs, hevs, hmap⟩ := validErrors_elim herrs
          exact ⟨some evs, by intro evs2 he; cases he; exact hevs, by rw [← hpdv, hmap]; rfl⟩
      obtain ⟨errs, herrsG, hre⟩ := hrform
      subst hre
      have hP := marshalPayload_resp dv errs
      rw [MarshalJSON_print id ty _ (some (.obj (respPayloadJ dv errs))) hid hty
        (by simp only; rw [hP])]
      rw [operationMessage.UnmarshalJSON, decodeRaw_env id ty _ hid hty
        (fun v hv => by
          cases hv
          rw [rawGood_obj]
          exact rawGoodFB_respPayload dv errs hdv herrsG)]
      have hlen : ¬ (printJraw (.obj (respPayloadJ dv errs))).length = 0 := by
        rw [printJraw_obj]; simp
      have hnotreq := respTypes_not_req hmem
      by_cases hie : id = ""
      · subst hie
        simp [zeroOpMessage, Option.map, hlen, hmem, hnotreq,
          unmarshalResponse_print dv errs hdv herrsG]
      · simp [hie, zeroOpMessage, Option.map, hlen, hmem, hnotreq,
          unmarshalResponse_print dv errs hdv herrsG]
    | srvErr e =>
      rw [validPayloadB_srv, Bool.and_eq_true, beq_iff_eq] at hpv
      obtain ⟨hmem, hmsg⟩ := hpv
      subst hmem
      have hP := marshalPayload_srv hmsg
      rw [MarshalJSON_print id gqlError _ (some (.obj (srvPayloadJ e))) hid hty
        (by simp only; rw [hP])]
      rw [operationMessage.UnmarshalJSON, decodeRaw_env id gqlError _ hid hty
        (fun v hv => by
          cases hv
          rw [rawGood_obj]
          simp [srvPayloadJ, rawGoodFB_cons, rawGoodFB_nil, rawGood_str, hmsg,
            show plainStrB "msg" = true from by decide])]
      have hlen : ¬ (printJraw (.obj (srvPayloadJ e))).length = 0 := by
        rw [printJraw_obj]; simp
      have hnr : ¬ gqlError ∈ requestTypes := by decide
      have hns : ¬ gqlError ∈ responseTypes := by decide
      by_cases hie : id = ""
      · subst hie
        simp [zeroOpMessage, Option.map, hlen, hnr, hns,
          unmarshalServerError_print hmsg]
      · simp [hie, zeroOpMessage, Option.map, hlen, hnr, hns,
          unmarshalServerError_print hmsg]
    | unknown u => rw [validPayloadB_unknown] at hpv; exact absurd hpv (by simp)

/-! ### Last-wins member lookup and order independence -/

theorem lastKV_acc (key : String) : ∀ (ms : List (String × Jval × Bytes))
    (a : Option (Jval × Bytes)),
    ms.foldl (fun acc m2 => if m2.1 == key then some m2.2 else acc) a =
      (match ms.foldl (fun acc m2 => if m2.1 == key then some m2.2 else acc) none with
       | some x => some x
       | none => a)
  | [], a => by simp
  | m :: ms, a => by
    rw [List.foldl_cons, List.foldl_cons,
      lastKV_acc key ms (if m.1 == key then some m.2 else a),
      lastKV_acc key ms (if m.1 == key then some m.2 else none)]
    cases h2 : ms.foldl (fun acc m2 => if m2.1 == key then some m2.2 else acc) none with
    | some x => rfl
    | none =>
      by_cases he : m.1 == key
      · rw [if_pos he, if_pos he]
      · rw [if_neg he, if_neg he]

theorem lastKV_cons (key : String) (m : String × Jval × Bytes)
    (ms : List (String × Jval × Bytes)) :
    lastKV key (m :: ms) =
      (match lastKV key ms with
       | some x => some x
       | none => if m.1 == key then some m.2 else none) := by
  rw [lastKV, List.foldl_cons, lastKV_acc key ms (if m.1 == key then some m.2 else none)]
  rfl

theorem lastKV_not_mem (key : String) : ∀ {ms : List (String × Jval × Bytes)},
    (∀ m2 ∈ ms, ¬ m2.1 = key) → lastKV key ms = none
  | [], _ => rfl
  | m :: ms, h => by
    rw [lastKV_cons, lastKV_not_mem key (fun m2 hm => h m2 (List.mem_cons_of_mem _ hm))]
    simp [h m (List.mem_cons_self _ _)]

theorem lastKV_some_mem (key : String) : ∀ {ms : List (String × Jval × Bytes)}
    {x : Jval × Bytes}, lastKV key ms = some x → (key, x) ∈ ms
  | [], x, h => by rw [lastKV] at h; simp at h
  | m :: ms, x, h => by
    rw [lastKV_cons] at h
    cases h2 : lastKV key ms with
    | some y =>
      rw [h2] at h
      simp at h
      subst h
      exact List.mem_cons_of_mem _ (lastKV_some_mem key h2)
    | none =>
      rw [h2] at h
      simp only at h
      by_cases he : m.1 = key
      · rw [if_pos (by simp [he])] at h
        simp at h
        subst h
        have : m = (key, m.2) := by
          obtain ⟨a, b⟩ := m
          simp only at he
          rw [he]
        rw [← this]
        exact List.mem_cons_self _ _
      · rw [if_neg (by simp [he])] at h
        simp at h

theorem lastKV_mem_nodup (key : String) : ∀ {ms : List (String × Jval × Bytes)}
    {x : Jval × Bytes}, (ms.map (fun m => m.1)).Nodup → (key, x) ∈ ms →
    lastKV key ms = some x
  | [], x, _, hm => by simp at hm
  | m :: ms, x, hnd, hm => by
    rw [List.map_cons, List.nodup_cons] at hnd
    rw [lastKV_cons]
    rcases List.mem_cons.mp hm with e | hmem
    · subst e
      rw [lastKV_not_mem key (fun m2 hm2 he => hnd.1 (by
        rw [← he]
        exact List.mem_map_of_mem (fun m => m.1) hm2))]
      simp
    · rw [lastKV_mem_nodup key hnd.2 hmem]

theorem lastKV_perm {ms1 ms2 : List (String × Jval × Bytes)} (key : String)
    (hp : ms1.Perm ms2) (hnd : (ms1.map (fun m => m.1)).Nodup) :
    lastKV key ms1 = lastKV key ms2 := by
  have hnd2 : (ms2.map (fun m => m.1)).Nodup := hnd.perm (hp.map _)
  cases h1 : lastKV key ms1 with
  | some x =>
    exact (lastKV_mem_nodup key hnd2
      (hp.mem_iff.mp (lastKV_some_mem key h1))).symm
  | none =>
    refine (lastKV_not_mem key ?_).symm
    intro m2 hm2 he
    have hm1 : m2 ∈ ms1 := hp.mem_iff.mpr hm2
    have : lastKV key ms1 ≠ none := by
      rw [lastKV_mem_nodup key hnd (show (key, m2.2) ∈ ms1 from by
        have : m2 = (key, m2.2) := by
          obtain ⟨a, b⟩ := m2
          simp only at he
          rw [he]
        rw [← this]
        exact hm1)]
      simp
    exact this h1

theorem lastStr_cons_skip (key d : String) (m : String × Jval × Bytes)
    (ms : List (String × Jval × Bytes)) (h : ¬ m.1 = key) :
    lastStr key d (m :: ms) = lastStr key d ms := by
  rw [lastStr, lastStr, lastKV_cons]
  cases lastKV key ms with
  | some x => rfl
  | none => simp [h]

theorem lastStr_cons_hit (key d s0 : String) (raw : Bytes)
    (ms : List (String × Jval × Bytes))
    (hstr : ∀ x, lastKV key ms = some x → ∃ s, x.1 = Jval.str s) :
    lastStr key d ((key, Jval.str s0, raw) :: ms) = lastStr key s0 ms := by
  rw [lastStr, lastStr, lastKV_cons]
  cases hL : lastKV key ms with
  | none => simp
  | some x =>
    obtain ⟨xv, xr⟩ := x
    obtain ⟨s, hs⟩ := hstr _ hL
    simp only at hs
    subst hs
    rfl

theorem lastRaw_cons_skip (d : Option Bytes) (m : String × Jval × Bytes)
    (ms : List (String × Jval × Bytes)) (h : ¬ m.1 = "payload") :
    lastRaw d (m :: ms) = lastRaw d ms := by
  rw [lastRaw, lastRaw, lastKV_cons]
  cases lastKV "payload" ms with
  | some x => rfl
  | none => simp [h]

theorem lastRaw_cons_hit (d : Option Bytes) (v : Jval) (raw : Bytes)
    (ms : List (String × Jval × Bytes)) :
    lastRaw d (("payload", v, raw) :: ms) = lastRaw (some raw) ms := by
  rw [lastRaw, lastRaw, lastKV_cons]
  cases lastKV "payload" ms with
  | some x => rfl
  | none => simp

/-- The decoder fold over the raw envelope struct keeps, for each of `id`,
`type` and `payload`, the value of the last member with that key. -/
theorem rawFold_char : ∀ (ms : List (String × Jval × Bytes)) (acc : rawOpMessage),
    (∀ kv ∈ ms, kv.1 = "id" ∨ kv.1 = "type" → ∃ s, kv.2.1 = Jval.str s) →
    ms.foldlM applyRawField acc =
      .ok ⟨lastStr "id" acc.id ms, lastStr "type" acc.type ms, lastRaw acc.payload ms⟩
  | [], acc, _ => by
    simp [lastStr, lastRaw, lastKV, Pure.pure, Except.pure]
  | (k, v, raw) :: ms, acc, h => by
    have htail : ∀ kv ∈ ms, kv.1 = "id" ∨ kv.1 = "type" → ∃ s, kv.2.1 = Jval.str s :=
      fun kv hm => h kv (List.mem_cons_of_mem _ hm)
    have hstrKV : ∀ (key : String), (key = "id" ∨ key = "type") →
        ∀ x, lastKV key ms = some x → ∃ s, x.1 = Jval.str s := by
      intro key hkey x hL
      have hmem : (key, x) ∈ ms := lastKV_some_mem key hL
      exact htail (key, x) hmem hkey
    rw [List.foldlM_cons]
    by_cases hk : k = "id"
    · subst hk
      obtain ⟨s, hs⟩ := h _ (List.mem_cons_self _ _) (Or.inl rfl)
      simp only at hs
      subst hs
      have ha : applyRawField acc ("id", Jval.str s, raw) = .ok { acc with id := s } := by
        simp [applyRawField]
      rw [ha]
      show List.foldlM applyRawField { acc with id := s } ms = _
      rw [rawFold_char ms { acc with id := s } htail]
      rw [lastStr_cons_hit "id" acc.id s raw ms (hstrKV "id" (Or.inl rfl)),
        lastStr_cons_skip "type" acc.type _ ms (by simp),
        lastRaw_cons_skip acc.payload _ ms (by simp)]
    · by_cases hk2 : k = "type"
      · subst hk2
        obtain ⟨s, hs⟩ := h _ (List.mem_cons_self _ _) (Or.inr rfl)
        simp only at hs
        subst hs
        have ha : applyRawField acc ("type", Jval.str s, raw) =
            .ok { acc with type := s } := by
          simp [applyRawField]
        rw [ha]
        show List.foldlM applyRawField { acc with type := s } ms = _
        rw [rawFold_char ms { acc with type := s } htail]
        rw [lastStr_cons_skip "id" acc.id _ ms (by simp),
          lastStr_cons_hit "type" acc.type s raw ms (hstrKV "type" (Or.inr rfl)),
          lastRaw_cons_skip acc.payload _ ms (by simp)]
      · by_cases hk3 : k = "payload"
        · subst hk3
          have ha : applyRawField acc ("payload", v, raw) =
              .ok { acc with payload := some raw } := by
            simp [applyRawField]
          rw [ha]
          show List.foldlM applyRawField { acc with payload := some raw } ms = _
          rw [rawFold_char ms { acc with payload := some raw } htail]
          rw [lastStr_cons_skip "id" acc.id _ ms (by simp),
            lastStr_cons_skip "type" acc.type _ ms (by simp),
            lastRaw_cons_hit acc.payload v raw ms]
        · have ha : applyRawField acc (k, v, raw) = .ok acc := by
            simp [applyRawField, hk, hk2, hk3]
          rw [ha]
          show List.foldlM applyRawField acc ms = _
          rw [rawFold_char ms acc htail]
          rw [lastStr_cons_skip "id" acc.id _ ms (by simp [hk]),
            lastStr_cons_skip "type" acc.type _ ms (by simp [hk2]),
            lastRaw_cons_skip acc.payload _ ms (by simp [hk3])]

theorem annotF_fst (fs : List (String × Jval)) :
    (annotF fs).map (fun m => m.1) = fs.map (fun kv => kv.1) := by
  unfold annotF
  rw [List.map_map]
  rfl

/-- On a canonically printed object, the raw envelope decode keeps the last
`id`, `type` and `payload` members. -/
theorem decodeRaw_obj_char {fs : List (String × Jval)} (hg : rawGoodFB fs = true)
    (hstr : ∀ kv ∈ fs, kv.1 = "id" ∨ kv.1 = "type" → ∃ s, kv.2 = Jval.str s) :
    decodeRawOpMessage (printJraw (.obj fs)) =
      .ok ⟨lastStr "id" "" (annotF fs), lastStr "type" "" (annotF fs),
           lastRaw none (annotF fs)⟩ := by
  rw [decodeRawOpMessage, parseTopFields_print hg]
  exact rawFold_char (annotF fs) zeroRawOpMessage (by
    intro kv hm hkey
    obtain ⟨p, hp, he⟩ := List.mem_map.mp hm
    subst he
    simp only at hkey ⊢
    exact hstr p hp hkey)

/-- Decoding a printed object is invariant under permutation of its members
(when keys are distinct and `id`/`type` members are strings). -/
theorem UnmarshalJSON_obj_perm {l1 l2 : List (String × Jval)} (hp : l1.Perm l2)
    (hnd : (l1.map (fun kv => kv.1)).Nodup)
    (hg1 : rawGoodFB l1 = true) (hg2 : rawGoodFB l2 = true)
    (hstr : ∀ kv ∈ l1, kv.1 = "id" ∨ kv.1 = "type" → ∃ s, kv.2 = Jval.str s) :
    operationMessage.UnmarshalJSON zeroOpMessage (printJraw (.obj l1)) =
      operationMessage.UnmarshalJSON zeroOpMessage (printJraw (.obj l2)) := by
  have hstr2 : ∀ kv ∈ l2, kv.1 = "id" ∨ kv.1 = "type" → ∃ s, kv.2 = Jval.str s :=
    fun kv hm => hstr kv (hp.mem_iff.mpr hm)
  have hpA : (annotF l1).Perm (annotF l2) := hp.map _
  have hndA : ((annotF l1).map (fun m => m.1)).Nodup := by
    rw [annotF_fst]
    exact hnd
  have e1 := decodeRaw_obj_char hg1 hstr
  have e2 := decodeRaw_obj_char hg2 hstr2
  have hid : lastStr "id" "" (annotF l1) = lastStr "id" "" (annotF l2) := by
    rw [lastStr, lastStr, lastKV_perm "id" hpA hndA]
  have hty : lastStr "type" "" (annotF l1) = lastStr "type" "" (annotF l2) := by
    rw [lastStr, lastStr, lastKV_perm "type" hpA hndA]
  have hpl : lastRaw none (annotF l1) = lastRaw none (annotF l2) := by
    rw [lastRaw, lastRaw, lastKV_perm "payload" hpA hndA]
  rw [operationMessage.UnmarshalJSON, operationMessage.UnmarshalJSON, e1, e2,
    hid, hty, hpl]

/-- Whichever payload variant a successful decode produces is determined by
the decoded envelope's own `type` field. -/
theorem UnmarshalJSON_variant {b : Bytes} {m : operationMessage}
    (h : operationMessage.UnmarshalJSON zeroOpMessage b = .ok m) :
    (match m.payload with
     | none => True
     | some (.req _) => m.type ∈ requestTypes
     | some (.resp _) => m.type ∈ responseTypes
     | some (.srvErr _) => m.type = gqlError
     | some (.unknown _) => False) := by
  rw [operationMessage.UnmarshalJSON] at h
  cases hd : decodeRawOpMessage b with
  | error e =>
    rw [hd] at h
    simp at h
  | ok raw =>
    rw [hd] at h
    dsimp only at h
    cases hp : raw.payload with
    | none =>
      rw [hp] at h
      dsimp only at h
      simp only [Except.ok.injEq] at h
      subst h
      by_cases hi : raw.id ≠ "" <;> simp [hi, zeroOpMessage]
    | some p =>
      rw [hp] at h
      dsimp only at h
      by_cases hl : p.length = 0
      · rw [if_pos hl] at h
        simp only [Except.ok.injEq] at h
        subst h
        by_cases hi : raw.id ≠ "" <;> simp [hi, zeroOpMessage]
      · rw [if_neg hl] at h
        by_cases hreq : raw.type ∈ requestTypes
        · rw [if_pos hreq] at h
          cases hu : unmarshalRequest p ⟨"", none, ""⟩ with
          | error e =>
            rw [hu] at h
            simp at h
          | ok r =>
            rw [hu] at h
            simp only [Except.ok.injEq] at h
            subst h
            by_cases hi : raw.id ≠ "" <;> simp [hi, zeroOpMessage, hreq]
        · rw [if_neg hreq] at h
          by_cases hresp : raw.type ∈ responseTypes
          · rw [if_pos hresp] at h
            cases hu : unmarshalResponse p ⟨[], none⟩ with
            | error e =>
              rw [hu] at h
              simp at h
            | ok r =>
              rw [hu] at h
              simp only [Except.ok.injEq] at h
              subst h
              by_cases hi : raw.id ≠ "" <;> simp [hi, zeroOpMessage, hresp]
          · rw [if_neg hresp] at h
            by_cases hgql : raw.type = gqlError
            · rw [if_pos hgql] at h
              cases hu : unmarshalServerError p ⟨""⟩ with
              | error e =>
                rw [hu] at h
                simp at h
              | ok r =>
                rw [hu] at h
                simp only [Except.ok.injEq] at h
                subst h
                by_cases hi : raw.id ≠ "" <;> simp [hi, zeroOpMessage, hgql]
            · rw [if_neg hgql] at h
              simp at h

/-! ### Helpers for the claim theorems -/

theorem req_mem_known {ty : reqType} (h : ty ∈ requestTypes) : ty ∈ knownTypes := by
  rw [requestTypes] at h
  simp only [List.mem_cons, List.not_mem_nil, or_false] at h
  rcases h with h | h | h | h <;> (subst h; decide)

theorem resp_mem_known {ty : reqType} (h : ty ∈ responseTypes) : ty ∈ knownTypes := by
  rw [responseTypes] at h
  simp only [List.mem_cons, List.not_mem_nil, or_false] at h
  rcases h with h | h | h | h | h <;> (subst h; decide)

theorem gqlError_mem_known : gqlError ∈ knownTypes := by decide

/-- Every element of a comma-joined list appears verbatim in the join. -/
theorem joinComma_infix : ∀ (es : List Bytes), ∀ e ∈ es, List.IsInfix e (joinComma es)
  | [e0], e, he => by
    simp only [List.mem_cons, List.not_mem_nil, or_false] at he
    subst he
    exact ⟨[], [], by simp [joinComma]⟩
  | e0 :: e1 :: t, e, he => by
    rcases List.mem_cons.mp he with rfl | he2
    · exact ⟨[], ',' :: joinComma (e1 :: t), by simp [joinComma]⟩
    · obtain ⟨u, w, hw⟩ := joinComma_infix (e1 :: t) e he2
      refine ⟨e0 ++ [','] ++ u, w, ?_⟩
      rw [joinComma, ← hw]
      simp

/-- Every valid envelope marshals to the canonical text of an `envJ` object,
with the payload member present exactly when the payload is. -/
theorem marshal_env {m : operationMessage} (h : validMessageB m = true) :
    ∃ pj : Option Jval,
      (m.MarshalJSON).1 = printJraw (.obj (envJ m.id m.type pj)) ∧
      rawGoodFB (envJ m.id m.type pj) = true ∧
      (pj = none ↔ m.payload = none) := by
  obtain ⟨id, ty, p⟩ := m
  obtain ⟨hid, hty, hpv⟩ := validMessageB_elim h
  simp only at hid hty hpv ⊢
  cases p with
  | none =>
    exact ⟨none, MarshalJSON_print id ty none none hid hty trivial,
      rawGoodFB_env id ty none hid hty (by simp), by simp⟩
  | some pl =>
    cases pl with
    | req r =>
      rw [validPayloadB_req, Bool.and_eq_true, decide_eq_true_eq] at hpv
      obtain ⟨hmem, hreq⟩ := hpv
      refine ⟨some (.obj (reqPayloadJ r)),
        MarshalJSON_print id ty _ _ hid hty (by
          simp only
          rw [marshalPayload_req hreq]),
        rawGoodFB_env id ty _ hid hty (fun v hv => by
          cases hv
          rw [rawGood_obj]
          exact rawGoodFB_reqPayload hreq), by simp⟩
    | resp r =>
      rw [validPayloadB_resp, Bool.and_eq_true, decide_eq_true_eq] at hpv
      obtain ⟨hmem, hresp⟩ := hpv
      rw [validResponseB, Bool.and_eq_true] at hresp
      obtain ⟨hdata, herrs⟩ := hresp
      obtain ⟨dv, hdv, hpdv⟩ := rawValueTextB_elim hdata
      have hrform : ∃ errs : Option (List Jval),
          (∀ evs, errs = some evs → rawGoodLB evs = true) ∧
          r = ⟨printJraw dv, errs.map (fun evs => evs.map printJraw)⟩ := by
        obtain ⟨d, es⟩ := r
        simp only at hpdv herrs ⊢
        cases es with
        | none => exact ⟨none, by simp, by rw [← hpdv]; rfl⟩
        | some es2 =>
          rw [validErrorsB] at herrs
          obtain ⟨evs, hevs, hmap⟩ := validErrors_elim herrs
          exact ⟨some evs, by intro evs2 he; cases he; exact hevs,
            by rw [← hpdv, hmap]; rfl⟩
      obtain ⟨errs, herrsG, hre⟩ := hrform
      subst hre
      refine ⟨some (.obj (respPayloadJ dv errs)),
        MarshalJSON_print id ty _ _ hid hty (by
          simp only
          rw [marshalPayload_resp dv errs]),
        rawGoodFB_env id ty _ hid hty (fun v hv => by
          cases hv
          rw [rawGood_obj]
          exact rawGoodFB_respPayload dv errs hdv herrsG), by simp⟩
    | srvErr e =>
      rw [validPayloadB_srv, Bool.and_eq_true, beq_iff_eq] at hpv
      obtain ⟨hmem, hmsg⟩ := hpv
      refine ⟨some (.obj (srvPayloadJ e)),
        MarshalJSON_print id ty _ _ hid hty (by
          simp only
          rw [marshalPayload_srv hmsg]),
        rawGoodFB_env id ty _ hid hty (fun v hv => by
          cases hv
          rw [rawGood_obj]
          simp [srvPayloadJ, rawGoodFB_cons, rawGoodFB_nil, rawGood_str, hmsg,
            show plainStrB "msg" = true from by decide]), by simp⟩
    | unknown u =>
      rw [validPayloadB_unknown] at hpv
      exact absurd hpv (by simp)

/-! ### The claims -/

/-- Claim C1 (corrected): the round trip `decode (encode e) = e` does not hold
for every well-formed envelope (the hand-written encoder performs no string
escaping, so a quote inside a field breaks it); it holds for every valid
envelope in the sense of `validMessageB`: escape-free strings, the payload
variant matching the `type` tag, canonical variables maps, and raw values
that are canonical texts of parseable JSON. -/
theorem c1_round_trip_valid {m : operationMessage} (h : validMessageB m = true) :
    operationMessage.UnmarshalJSON zeroOpMessage (m.MarshalJSON).1 = .ok m :=
  roundTrip_valid h

/-- Counterexample to claim C1 as stated: a request whose query is a single
double-quote character encodes to bytes that fail to decode. -/
theorem c1_quote_breaks_round_trip :
    operationMessage.UnmarshalJSON zeroOpMessage
        ((⟨"1", gqlStart, some (.req ⟨"\"", none, ""⟩)⟩ :
          operationMessage).MarshalJSON).1 =
      .error "invalid character after object member" := rfl

/-- Witness for C1: a concrete valid envelope (id, `start`, a request payload
with variables and an operation name) round-trips. -/
theorem c1_round_trip_valid_witness :
    validMessageB ⟨"1", gqlStart, some (.req ⟨"q", some [("a", Jval.num 1)], "op"⟩)⟩
      = true ∧
    operationMessage.UnmarshalJSON zeroOpMessage
        ((⟨"1", gqlStart, some (.req ⟨"q", some [("a", Jval.num 1)], "op"⟩)⟩ :
          operationMessage).MarshalJSON).1 =
      .ok ⟨"1", gqlStart, some (.req ⟨"q", some [("a", Jval.num 1)], "op"⟩)⟩ :=
  ⟨rfl, c1_round_trip_valid rfl⟩

/-- Claim C2 (code bug): the spec requires a second `Close` on the same
connection not to panic, but `Conn.Close` runs `close(c.done)` unconditionally,
and closing a closed Go channel panics: the first call returns, the second
panics with "close of closed channel". -/
theorem c2_second_close_panics :
    (Conn.Close newConn none).2.1 = closeOutcome.returned none ∧
    ((Conn.Close newConn none).1.Close none).2.1 =
      closeOutcome.panicked "close of closed channel" := ⟨rfl, rfl⟩

/-- Claim C3 (code bug): the spec requires `Close` to release the transport in
every case, but when the `connection_terminate` write fails `Conn.Close`
returns that error immediately: the transport stays open and no
`closedTransport` event occurs. -/
theorem c3_failed_terminate_skips_transport_close :
    Conn.Close newConn (some "io error") =
      (⟨true, false⟩, closeOutcome.returned (some "io error"),
       [connEvent.closedDoneChannel,
        connEvent.wroteMessage (lit "\x7b\"type\":\"connection_terminate\"\x7d")
          false]) := rfl

/-- Claim C4 (corrected): an unknown `type` tag is a decode failure only when
a payload member with non-empty raw text is present; with the payload member
absent (or empty), `len(raw.Payload) == 0` makes the decoder return success,
contrary to the claim's "regardless of whether a payload field is present or
absent". -/
theorem c4_unknown_type {b : Bytes} {raw : rawOpMessage}
    (hd : decodeRawOpMessage b = .ok raw) (hk : ¬ raw.type ∈ knownTypes) :
    (∀ p, raw.payload = some p → ¬ p = [] →
      operationMessage.UnmarshalJSON zeroOpMessage b =
        .error ("unsupported message type: " ++ raw.type)) ∧
    (raw.payload = none ∨ raw.payload = some [] →
      (operationMessage.UnmarshalJSON zeroOpMessage b).isOk = true) := by
  have hreq : ¬ raw.type ∈ requestTypes := fun hmem => hk (req_mem_known hmem)
  have hresp : ¬ raw.type ∈ responseTypes := fun hmem => hk (resp_mem_known hmem)
  have herr : ¬ raw.type = gqlError := fun he => hk (he ▸ gqlError_mem_known)
  rw [operationMessage.UnmarshalJSON, hd]
  dsimp only
  constructor
  · intro p hp hne
    rw [hp]
    dsimp only
    rw [if_neg (by simpa using hne), if_neg hreq, if_neg hresp, if_neg herr]
  · intro h12
    rcases h12 with hp | hp
    · rw [hp]
      rfl
    · rw [hp]
      rfl

/-- Counterexample to claim C4 as stated: an envelope with the unknown type
`bogus` and no payload member decodes successfully. -/
theorem c4_unknown_type_no_payload_ok :
    operationMessage.UnmarshalJSON zeroOpMessage (lit "\x7b\"type\":\"bogus\"\x7d") =
      .ok ⟨"", "bogus", none⟩ := rfl

/-- Witness for C4: type `bogus` with a payload member fails with the
unsupported-type error; type `bogus` without one decodes successfully. -/
theorem c4_unknown_type_witness :
    operationMessage.UnmarshalJSON zeroOpMessage
        (lit "\x7b\"type\":\"bogus\",\"payload\":\x7b\x7d\x7d") =
      .error ("unsupported message type: " ++ "bogus") ∧
    (operationMessage.UnmarshalJSON zeroOpMessage
        (lit "\x7b\"type\":\"bogus\"\x7d")).isOk = true :=
  ⟨(@c4_unknown_type (lit "\x7b\"type\":\"bogus\",\"payload\":\x7b\x7d\x7d")
      ⟨"", "bogus", some (lit "\x7b\x7d")⟩ rfl (by decide)).1
      (lit "\x7b\x7d") rfl (by decide),
   (@c4_unknown_type (lit "\x7b\"type\":\"bogus\"\x7d")
      ⟨"", "bogus", none⟩ rfl (by decide)).2 (Or.inl rfl)⟩

/-- Claim C5 (confirmed): the envelope encoder omits the `id` key exactly when
the id is empty and the `payload` key exactly when the payload is absent, and
the members present appear in the order `id`, `type`, `payload`: parsing the
encoder's output yields exactly that key list. -/
theorem c5_field_omission {m : operationMessage} (h : validMessageB m = true) :
    Except.map (Option.map (List.map (fun kv => kv.1)))
        (parseTopFields (m.MarshalJSON).1) =
      .ok (some ((if m.id = "" then [] else ["id"]) ++
        "type" :: (match m.payload with | none => [] | some _ => ["payload"]))) := by
  obtain ⟨pj, hP, hG, hiff⟩ := marshal_env h
  rw [hP, parseTopFields_print hG]
  rw [show Except.map (Option.map (List.map (fun kv => kv.1)))
        (Except.ok (some (annotF (envJ m.id m.type pj))) :
          Except String (Option (List (String × Jval × Bytes)))) =
      .ok (some ((annotF (envJ m.id m.type pj)).map (fun kv => kv.1))) from rfl]
  rw [annotF_fst]
  unfold envJ
  cases hpj : pj with
  | none =>
    rw [hiff.mp hpj]
    by_cases hie : m.id = "" <;> simp [hie]
  | some v =>
    cases hmp : m.payload with
    | none =>
      rw [hiff.mpr hmp] at hpj
      cases hpj
    | some pl =>
      by_cases hie : m.id = "" <;> simp [hie]

/-- Witness for C5: an envelope with empty id and no payload parses back to
exactly the key list `["type"]`. -/
theorem c5_field_omission_witness :
    Except.map (Option.map (List.map (fun kv => kv.1)))
        (parseTopFields ((⟨"", gqlConnectionAck, none⟩ :
          operationMessage).MarshalJSON).1) =
      .ok (some ["type"]) :=
  @c5_field_omission ⟨"", gqlConnectionAck, none⟩ rfl

/-- Claim C6 (corrected): the payload encoder emits the `variables` and
`errors` keys whenever the respective field is non-nil — also when it is
present but empty, contrary to the claim's "only when non-empty";
`operationName` is emitted exactly when non-empty.  Parsing the encoder's
output shows the key exactly when the field is `some`. -/
theorem c6_key_presence :
    (∀ r : Request, validRequestB r = true →
      Except.map (Option.map (List.map (fun kv => kv.1)))
          (parseTopFields (marshalPayload (.req r)).1) =
        .ok (some ("query" ::
          ((match r.vars with | none => [] | some _ => ["variables"]) ++
           (if r.operationName = "" then [] else ["operationName"]))))) ∧
    (∀ r : Response, validResponseB r = true →
      Except.map (Option.map (List.map (fun kv => kv.1)))
          (parseTopFields (marshalPayload (.resp r)).1) =
        .ok (some ("data" ::
          (match r.errors with | none => [] | some _ => ["errors"])))) := by
  constructor
  · intro r h
    rw [marshalPayload_req h, parseTopFields_print (rawGoodFB_reqPayload h)]
    rw [show Except.map (Option.map (List.map (fun kv => kv.1)))
          (Except.ok (some (annotF (reqPayloadJ r))) :
            Except String (Option (List (String × Jval × Bytes)))) =
        .ok (some ((annotF (reqPayloadJ r)).map (fun kv => kv.1))) from rfl]
    rw [annotF_fst]
    unfold reqPayloadJ
    obtain ⟨q, vars, opn⟩ := r
    dsimp only
    cases vars with
    | none => by_cases hop : opn = "" <;> simp [hop]
    | some mv => by_cases hop : opn = "" <;> simp [hop]
  · intro r h
    rw [validResponseB, Bool.and_eq_true] at h
    obtain ⟨hdata, herrs⟩ := h
    obtain ⟨dv, hdv, hpdv⟩ := rawValueTextB_elim hdata
    have hrform : ∃ errs : Option (List Jval),
        (∀ evs, errs = some evs → rawGoodLB evs = true) ∧
        r = ⟨printJraw dv, errs.map (fun evs => evs.map printJraw)⟩ := by
      obtain ⟨d, es⟩ := r
      simp only at hpdv herrs ⊢
      cases es with
      | none => exact ⟨none, by simp, by rw [← hpdv]; rfl⟩
      | some es2 =>
        rw [validErrorsB] at herrs
        obtain ⟨evs, hevs, hmap⟩ := validErrors_elim herrs
        exact ⟨some evs, by intro evs2 he; cases he; exact hevs,
          by rw [← hpdv, hmap]; rfl⟩
    obtain ⟨errs, herrsG, hre⟩ := hrform
    subst hre
    rw [marshalPayload_resp dv errs,
      parseTopFields_print (rawGoodFB_respPayload dv errs hdv herrsG)]
    rw [show Except.map (Option.map (List.map (fun kv => kv.1)))
          (Except.ok (some (annotF (respPayloadJ dv errs))) :
            Except String (Option (List (String × Jval × Bytes)))) =
        .ok (some ((annotF (respPayloadJ dv errs)).map (fun kv => kv.1))) from rfl]
    rw [annotF_fst]
    unfold respPayloadJ
    cases errs with
    | none => simp [Option.map]
    | some evs => simp [Option.map]

/-- Counterexample to claim C6 as stated: a present-but-empty errors slice
emits the `errors` key, and a present-but-empty variables map emits the
`variables` key. -/
theorem c6_empty_collections_emit_keys :
    (marshalPayload (.resp ⟨lit "null", some []⟩)).1 =
      lit "\x7b\"data\":null,\"errors\":[]\x7d" ∧
    (marshalPayload (.req ⟨"q", some [], ""⟩)).1 =
      lit "\x7b\"query\":\"q\",\"variables\":\x7b\x7d\x7d" := by
  constructor
  · rfl
  · have hj : jsonMarshal (Jval.obj []) = .ok [lbrace, rbrace] := by
      simp [jsonMarshal, printJraw_obj, printFieldsRaw_nil,
        show hasUnsupported (Jval.obj []) = false from by decide,
        show sortDeep (Jval.obj []) = Jval.obj [] from rfl]
    rw [marshalPayload]
    dsimp only
    rw [hj]
    rfl

/-- Witness for C6: a request with absent variables and an operation name
yields keys `query, operationName`; a response with absent errors yields the
single key `data`. -/
theorem c6_key_presence_witness :
    Except.map (Option.map (List.map (fun kv => kv.1)))
        (parseTopFields (marshalPayload (.req ⟨"q", none, "op"⟩)).1) =
      .ok (some ["query", "operationName"]) ∧
    Except.map (Option.map (List.map (fun kv => kv.1)))
        (parseTopFields (marshalPayload (.resp ⟨lit "null", none⟩)).1) =
      .ok (some ["data"]) :=
  ⟨c6_key_presence.1 ⟨"q", none, "op"⟩ rfl,
   c6_key_presence.2 ⟨lit "null", none⟩ (by
     rw [validResponseB]
     have : rawValueTextB (lit "null") = true := by
       rw [rawValueTextB]
       rw [show parseVal ((lit "null").length + 1) (lit "null") =
         .ok (Jval.null, []) from rfl]
       simp [printJraw_null]
       exact ⟨by decide, by decide⟩
     simp [this, validErrorsB])⟩

/-- Claim C7 (confirmed): the response encoder copies the opaque raw bytes of
`data` and of every element of `errors` verbatim into its output. -/
theorem c7_raw_bytes_verbatim (d : Bytes) (es : List Bytes) :
    (marshalPayload (.resp ⟨d, none⟩)).1 = lit "\x7b\"data\":" ++ d ++ [rbrace] ∧
    (marshalPayload (.resp ⟨d, some es⟩)).1 =
      lit "\x7b\"data\":" ++ d ++ lit ",\"errors\":[" ++ joinComma es ++ [']'] ++
        [rbrace] ∧
    ∀ e ∈ es, List.IsInfix e (joinComma es) :=
  ⟨rfl, rfl, fun e he => joinComma_infix es e he⟩

/-- Witness for C7: concrete raw error elements appear verbatim inside the
encoded response. -/
theorem c7_raw_bytes_verbatim_witness :
    (marshalPayload (.resp ⟨lit "null", some [lit "1", lit "2"]⟩)).1 =
      lit "\x7b\"data\":" ++ lit "null" ++ lit ",\"errors\":[" ++
        joinComma [lit "1", lit "2"] ++ [']'] ++ [rbrace] ∧
    List.IsInfix (lit "2") (joinComma [lit "1", lit "2"]) :=
  ⟨(c7_raw_bytes_verbatim (lit "null") [lit "1", lit "2"]).2.1,
   (c7_raw_bytes_verbatim (lit "null") [lit "1", lit "2"]).2.2 (lit "2") (by decide)⟩

/-- Claim C8 (confirmed): decoding a printed envelope object is invariant
under permutation of its top-level members (distinct keys, string-valued
`id`/`type`), and whenever a decode succeeds, the variant of the payload it
produced is determined by the decoded envelope's `type` field. -/
theorem c8_order_independent :
    (∀ l1 l2 : List (String × Jval), l1.Perm l2 →
      (l1.map (fun kv => kv.1)).Nodup →
      rawGoodFB l1 = true → rawGoodFB l2 = true →
      (∀ kv ∈ l1, kv.1 = "id" ∨ kv.1 = "type" → ∃ s, kv.2 = Jval.str s) →
      operationMessage.UnmarshalJSON zeroOpMessage (printJraw (.obj l1)) =
        operationMessage.UnmarshalJSON zeroOpMessage (printJraw (.obj l2))) ∧
    (∀ (b : Bytes) (m : operationMessage),
      operationMessage.UnmarshalJSON zeroOpMessage b = .ok m →
      (match m.payload with
       | none => True
       | some (.req _) => m.type ∈ requestTypes
       | some (.resp _) => m.type ∈ responseTypes
       | some (.srvErr _) => m.type = gqlError
       | some (.unknown _) => False)) :=
  ⟨fun _ _ hp hnd hg1 hg2 hstr => UnmarshalJSON_obj_perm hp hnd hg1 hg2 hstr,
   fun _ _ h => UnmarshalJSON_variant h⟩

/-- Witness for C8: swapping the `id` and `type` members leaves the decode
result unchanged, and a successfully decoded `start` envelope with a request
payload indeed has a request type. -/
theorem c8_order_independent_witness :
    (operationMessage.UnmarshalJSON zeroOpMessage
        (printJraw (.obj [("id", Jval.str "7"), ("type", Jval.str "connection_ack")])) =
      operationMessage.UnmarshalJSON zeroOpMessage
        (printJraw (.obj [("type", Jval.str "connection_ack"), ("id", Jval.str "7")]))) ∧
    ("start" : String) ∈ requestTypes :=
  ⟨c8_order_independent.1
      [("id", Jval.str "7"), ("type", Jval.str "connection_ack")]
      [("type", Jval.str "connection_ack"), ("id", Jval.str "7")]
      (List.Perm.swap _ _ _) (by decide) (by decide) (by decide)
      (by
        intro kv hm hk
        rcases List.mem_cons.mp hm with he | hm2
        · subst he
          exact ⟨"7", rfl⟩
        · rcases List.mem_cons.mp hm2 with he | hm3
          · subst he
            exact ⟨"connection_ack", rfl⟩
          · cases hm3),
   c8_order_independent.2
     (lit "\x7b\"type\":\"start\",\"payload\":\x7b\"query\":\"q\"\x7d\x7d")
     ⟨"", "start", some (.req ⟨"q", none, ""⟩)⟩ rfl⟩

/-- Claim C9 (confirmed, spec-modelled client): when a connection-fatal event
hits a client with no prior fault, every pending operation receives exactly
that connection error (none are dropped, none succeed), and every subsequent
submission on the connection fails immediately with the stored fault. -/
theorem c9_fatal_broadcast (c : Client) (f : connFault) (hc : c.fault = none) :
    ((c.onFatal f).2.map Prod.fst = c.pending) ∧
    (∀ out ∈ (c.onFatal f).2, out.2 = submitOutcome.connFailure f) ∧
    (∀ w : opID, Client.submit (c.onFatal f).1 w = .error f) := by
  unfold Client.onFatal
  rw [hc]
  refine ⟨?_, ?_, fun w => rfl⟩
  · rw [show (List.map (fun w => (w, submitOutcome.connFailure (Option.getD none f)))
        c.pending).map Prod.fst =
      c.pending.map (fun w => w) from by rw [List.map_map]; rfl]
    exact List.map_id c.pending
  intro out hout
  simp only [List.mem_map] at hout
  obtain ⟨w, hw, he⟩ := hout
  subst he
  rfl

/-- Witness for C9: a faultless client with two pending operations delivers
the I/O fault to both and fails a later submission with it. -/
theorem c9_fatal_broadcast_witness :
    (((⟨["1", "2"], none⟩ : Client).onFatal (.ioFailure "eof")).2.map Prod.fst =
      ["1", "2"]) ∧
    Client.submit ((⟨["1", "2"], none⟩ : Client).onFatal (.ioFailure "eof")).1 "3" =
      .error (.ioFailure "eof") :=
  ⟨(c9_fatal_broadcast ⟨["1", "2"], none⟩ (.ioFailure "eof") rfl).1,
   (c9_fatal_broadcast ⟨["1", "2"], none⟩ (.ioFailure "eof") rfl).2.2 "3"⟩

/-- Claim C10 (confirmed): `MarshalJSON` always returns a nil error — the
error `marshalPayload` reports (here: for an unserializable variables value)
is discarded, and the bytes emitted in that case are not parseable JSON. -/
theorem c10_marshal_error_discarded :
    (∀ m : operationMessage, (m.MarshalJSON).2 = none) ∧
    (marshalPayload (payload.req ⟨"q", some [("a", Jval.unsupported)], ""⟩)).2 =
      some "json: unsupported type" ∧
    ((⟨"", gqlStart, some (.req ⟨"q", some [("a", Jval.unsupported)], ""⟩)⟩ :
        operationMessage).MarshalJSON).2 = none ∧
    parseTopFields ((⟨"", gqlStart,
        some (.req ⟨"q", some [("a", Jval.unsupported)], ""⟩)⟩ :
        operationMessage).MarshalJSON).1 = .error "invalid character" :=
  ⟨fun _ => rfl, rfl, rfl, rfl⟩

end GTWS
